import Mathlib

/-!
# Verification of the trade-scenario streaming indicator engine

A shallow embedding of the columnar store (`utils.js` / `klines.js`), the
indicator engine (`indicator.js`), and the trade-execution callback of the
replay scenario, together with proofs and refutations of the specified
properties.

JavaScript numbers are modelled exactly as rationals extended with a `nan`
marker (`JF`).  All arithmetic helpers propagate `nan` the way JS `NaN`
propagates through `+ - * /`, `Math.max`, `Math.min` and `Math.abs`, and
comparisons involving `nan` are `false`, as in JS.  JS produces `Infinity`
for `finite / 0`; that case cannot be represented by a rational and is
mapped to `nan`; every verified code path either guards the denominator or
already has a `nan` numerator there, so the difference is unreachable in
the statements below (the one genuine `0 / 0` case, the mean of an empty
window, is `NaN` in JS and `nan` here as well).
-/

namespace TradeScenario

/-- A JS number: either `NaN` or a finite value (modelled as a rational). -/
inductive JF where
  | nan : JF
  | fin : ℚ → JF
deriving DecidableEq

/-- JS `+` on numbers, `NaN`-propagating. -/
def jadd : JF → JF → JF
  | JF.fin a, JF.fin b => JF.fin (a + b)
  | _, _ => JF.nan

/-- JS `-` on numbers, `NaN`-propagating. -/
def jsub : JF → JF → JF
  | JF.fin a, JF.fin b => JF.fin (a - b)
  | _, _ => JF.nan

/-- JS `*` on numbers, `NaN`-propagating. -/
def jmul : JF → JF → JF
  | JF.fin a, JF.fin b => JF.fin (a * b)
  | _, _ => JF.nan

/-- JS unary minus. -/
def jneg : JF → JF
  | JF.fin a => JF.fin (-a)
  | JF.nan => JF.nan

/-- JS `/` on numbers.  `NaN`-propagating; a zero denominator yields `nan`
(JS: `0/0` is `NaN`, `x/0` is `Infinity` — the latter is unreachable in
every path stated below, see the header comment). -/
def jdiv : JF → JF → JF
  | JF.fin a, JF.fin b => if b = 0 then JF.nan else JF.fin (a / b)
  | _, _ => JF.nan

/-- JS `Math.abs`. -/
def jabs : JF → JF
  | JF.fin a => JF.fin |a|
  | JF.nan => JF.nan

/-- JS `Math.max` of two numbers (`NaN` if either argument is `NaN`). -/
def jmax : JF → JF → JF
  | JF.fin a, JF.fin b => JF.fin (max a b)
  | _, _ => JF.nan

/-- JS `Math.min` of two numbers (`NaN` if either argument is `NaN`). -/
def jmin : JF → JF → JF
  | JF.fin a, JF.fin b => JF.fin (min a b)
  | _, _ => JF.nan

/-- JS `a > b` (false when either side is `NaN` or `undefined`). -/
def jgt : JF → JF → Bool
  | JF.fin a, JF.fin b => b < a
  | _, _ => false

/-- JS `a < b` (false when either side is `NaN` or `undefined`). -/
def jlt : JF → JF → Bool
  | JF.fin a, JF.fin b => a < b
  | _, _ => false

/-- Model of `array.reduce((a, b) => a + b, 0)` over a numeric array. -/
def jsum (l : List JF) : JF := l.foldl jadd (JF.fin 0)

/-- A value appearing in a scalar input array.  The indicators only ever
test `typeof v === 'number'` and then compute with the number, so every
non-number (`null`, `undefined`, strings, objects) is collapsed into the
single constructor `nonnum`. -/
inductive JV where
  | num : JF → JV
  | nonnum : JV
deriving DecidableEq

/-- Model of `typeof v === 'number'`. -/
def JV.isNum : JV → Bool
  | JV.num _ => true
  | JV.nonnum => false

/-- The numeric payload (only used after an `isNum` test). -/
def JV.toJF : JV → JF
  | JV.num x => x
  | JV.nonnum => JF.nan

/-!
## `utils.js` — ArrayMap, and `klines.js` — Klines

A raw record (the argument of `Klines.invert`) is a JS object whose fields
are numbers; an absent key reads as `undefined`.  JS numeric object keys
(`obj[1]`) coincide with their string form (`obj["1"]`).
-/

/-- A raw JS record: association list from key to numeric value.  Keys are
unique by construction (JS object). -/
abbrev RawObj : Type := List (String × JF)

/-- Model of `obj[k]` — `none` models `undefined`. -/
def jget (obj : List (String × JF)) (k : String) : Option JF :=
  (obj.find? (fun kv => kv.1 == k)).map (fun kv => kv.2)

/-- JS `parseFloat` applied to a field value: `undefined` gives `NaN`, a
number parses to itself. -/
def parseFloatJS : Option JF → JF
  | some (JF.fin q) => JF.fin q
  | _ => JF.nan

/-- Truncation toward zero, matching `parseInt` on the decimal rendering of
a finite number. -/
def jtrunc (q : ℚ) : ℤ := if 0 ≤ q then ⌊q⌋ else -⌊-q⌋

/-- JS `parseInt` applied to a field value. -/
def parseIntJS : Option JF → JF
  | some (JF.fin q) => JF.fin (jtrunc q : ℤ)
  | _ => JF.nan

/-- The scheme-detection test `!isNaN(parseFloat(v))` of `Klines.invert`. -/
def isFiniteField : Option JF → Bool
  | some (JF.fin _) => true
  | _ => false

/-- Model of `String.prototype.toUpperCase` (ASCII, which covers every key used). -/
def upperStr (s : String) : String := ⟨s.data.map Char.toUpper⟩

/-- JS `e[0]` on a nonempty string, as a one-character string. -/
def firstStr (s : String) : String := ⟨s.data.take 1⟩

/-- Model of `Klines.source` — the supported source fields, in order. -/
def klinesSource : List String :=
  ["timestamp", "open", "high", "low", "close", "volume", "hl2", "hlc3", "ohlc4", "hlcc4"]

/-- Model of `Array.prototype.slice(a, b)` for `0 ≤ a ≤ b ≤ length`. -/
def jsSlice (l : List String) (a b : ℕ) : List String := (l.take b).drop a

/-- The candidate detection keys of `Klines.invert` (JS `obj[1]` is
`obj["1"]`). -/
def invCandidates : List String := ["1", "o", "open", "O", "OPEN"]

/-- The key-transformation associated with the `i`-th candidate scheme. -/
def transformFn : ℕ → String → String
  | 0 => fun e => firstStr e
  | 1 => fun e => firstStr e
  | 2 => fun e => e
  | 3 => fun e => upperStr (firstStr e)
  | 4 => fun e => upperStr e
  | _ => fun e => e

/-- The first candidate index whose detection field of the first record
parses as a finite number. -/
def findScheme (r : List (String × JF)) : Option ℕ :=
  (List.range invCandidates.length).find?
    (fun i => isFiniteField (jget r (invCandidates.getD i "")))

/-- One output row of `Klines.invert`: walk the paired output/lookup keys;
the key at position `0` is integer-parsed, the rest float-parsed. -/
def invertRow (d : List (String × JF)) : List (String × String) → ℕ → List (String × JF)
  | [], _ => []
  | (ko, ki) :: rest, k =>
      (ko, if k = 0 then parseIntJS (jget d ki) else parseFloatJS (jget d ki)) ::
        invertRow d rest (k + 1)

/-- Model of `Klines.invert` — normalizes a batch of raw records.  Mirrors the
source exactly, including `keysOut = this.source.slice(6, 10)`. -/
def Klines.invert (data : List RawObj) : List (List (String × JF)) :=
  match data with
  | [] => []
  | first :: _ =>
    let keysOut := jsSlice klinesSource 6 10
    match findScheme first with
    | none => []
    | some i =>
      let keysIn := keysOut.map (transformFn i)
      data.map (fun d => invertRow d (keysOut.zip keysIn) 0)

/-- The column table of an `ArrayMap`: column name paired with its cell
array; a cell is `none` for a stored `undefined`. -/
abbrev Cols : Type := List (String × List (Option JF))

/-- Model of `ArrayMap.length` — the maximum column length. -/
def amLength (cols : Cols) : ℕ :=
  cols.foldl (fun acc kv => max acc kv.2.length) 0

/-- Does a column with this key exist? -/
def amHasKey (cols : Cols) (k : String) : Bool := cols.any (fun kv => kv.1 == k)

/-- Model of `ArrayMap.addKey` for one key: backfill a new column with `undefined`
to the current length; no-op when present. -/
def amAddKey (cols : Cols) (k : String) : Cols :=
  if amHasKey cols k then cols
  else cols ++ [(k, List.replicate (amLength cols) (none : Option JF))]

/-- Model of `ArrayMap.addKey(...keys)`. -/
def amAddKeys (cols : Cols) (ks : List String) : Cols := ks.foldl amAddKey cols

/-- Model of `ArrayMap.push` for one row object: ensure all its keys exist, then
append `key in obj ? obj[key] : undefined` to every column. -/
def amPushObj (cols : Cols) (obj : List (String × JF)) : Cols :=
  let cols1 := amAddKeys cols (obj.map (fun kv => kv.1))
  cols1.map (fun kv => (kv.1, kv.2 ++ [jget obj kv.1]))

/-- Model of `ArrayMap.push(...objects)`. -/
def amPushMany (cols : Cols) (objs : List (List (String × JF))) : Cols :=
  objs.foldl amPushObj cols

/-- Model of `ArrayMap.splice(0, k)` with no insertions: the delete count is clamped
to the table length, then each column drops that many leading cells. -/
def amSplice0 (cols : Cols) (k : ℕ) : Cols :=
  let d := min (amLength cols) k
  cols.map (fun kv => (kv.1, kv.2.drop d))

/-- Model of `Klines.push(...objects)`: normalize, evict from the front when the
combined count exceeds the limit, then append. -/
def klinesPush (limit : ℕ) (cols : Cols) (objects : List RawObj) : Cols :=
  let results := Klines.invert objects
  let count := results.length + amLength cols
  let cols1 := amSplice0 cols (if limit < count then count - limit else 0)
  amPushMany cols1 results

/-- A raw row using the numeric-index scheme: detection field `"1"` holds a
finite number. -/
def exRawIdx : RawObj := [("1", JF.fin 5)]

/-- A raw candle in lowercase full-word form. -/
def exRawCandle : RawObj :=
  [("timestamp", JF.fin 100), ("open", JF.fin 1), ("high", JF.fin 2),
   ("low", JF.fin 1), ("close", JF.fin 2)]

/-!
## `indicator.js` — the indicator engine

Scalar indicators (`MovingAverage`, `ExponentialMovingAverage`,
`MovingAverageConvergenceDivergence`, `RelativeStrengthIndex`) keep a
cursor: each `push(numberArray)` call iterates `i` from
`this.values['base'].length` to `numberArray.length - 1`, appending exactly
one cell per output column per index.  That loop is modelled by `stepN`
with fuel `numberArray.length - base.length`.

`AverageTrueRange.push` and `SuperTrend.push` instead iterate over every
element of their argument (no cursor), so they are folds over the whole
argument list.  (Both skip non-object elements; inputs here are candles,
so that branch never fires.)
-/

/-- Iterate a step function a fixed number of times (the `for` loop of the
scalar indicators, whose iteration count `end - start` is fixed at entry). -/
def stepN {σ : Type} (f : σ → σ) : ℕ → σ → σ
  | 0, s => s
  | n + 1, s => stepN f n (f s)

/-- Model of `array.at(-1)`: the last element, or `undefined`. -/
def lastOpt {α : Type} : List α → Option α
  | [] => none
  | [x] => some x
  | _ :: y :: t => lastOpt (y :: t)

/-- Model of `MovingAverage.calc`: `null` when any element of the window is not a
number, otherwise the arithmetic mean (`NaN` for an empty window, as the
JS `0/0`). -/
def maCalc (values : List JV) : Option JF :=
  let cleaned := values.filter JV.isNum
  if cleaned.length < values.length then none
  else some (jdiv (jsum (cleaned.map JV.toJF)) (JF.fin cleaned.length))

/-- Model of `ExponentialMovingAverage.calc(current, prev, period)`: `null` unless
both arguments are numbers; numbers include `NaN`. -/
def emaCalcJS (cur : Option JF) (prev : Option JF) (p : ℕ) : Option JF :=
  match cur, prev with
  | some x, some pv =>
      some (jadd (jmul (jsub x pv) (JF.fin (2 / ((p : ℚ) + 1)))) pv)
  | _, _ => none

/-- The cell `MovingAverage.push` appends at index `i = base.length`. -/
def maEntry (p : ℕ) (xs : List JV) (b : List (Option JF)) : Option JF :=
  if b.length + 1 < p then none
  else maCalc ((xs.take (b.length + 1)).drop (b.length + 1 - p))

/-- One iteration of the `MovingAverage.push` loop. -/
def maStep (p : ℕ) (xs : List JV) (b : List (Option JF)) : List (Option JF) :=
  b ++ [maEntry p xs b]

/-- Model of `MovingAverage.push(numberArray)` on the `base` column. -/
def maPush (p : ℕ) (b : List (Option JF)) (xs : List JV) : List (Option JF) :=
  stepN (maStep p xs) (xs.length - b.length) b

/-- The cell `ExponentialMovingAverage.push` computes once the scalar at
the cursor has been read (index comparisons in ℤ, as JS computes
`period - 1` before comparing). -/
def emaCell (p : ℕ) (xs : List JV) (b : List (Option JF)) : JV → Option JF
  | JV.num x =>
      if (b.length : ℤ) < (p : ℤ) - 1 then none
      else if (b.length : ℤ) = (p : ℤ) - 1 then
        maCalc ((xs.take (b.length + 1)).drop (b.length + 1 - p))
      else emaCalcJS (some x) (if b.length = 0 then none else b.getD (b.length - 1) none) p
  | JV.nonnum => none

/-- The cell `ExponentialMovingAverage.push` appends at `i = base.length`. -/
def emaEntry (p : ℕ) (xs : List JV) (b : List (Option JF)) : Option JF :=
  emaCell p xs b (xs.getD b.length JV.nonnum)

/-- One iteration of the `ExponentialMovingAverage.push` loop. -/
def emaStep (p : ℕ) (xs : List JV) (b : List (Option JF)) : List (Option JF) :=
  b ++ [emaEntry p xs b]

/-- Model of `ExponentialMovingAverage.push(numberArray)` on the `base` column. -/
def emaPush (p : ℕ) (b : List (Option JF)) (xs : List JV) : List (Option JF) :=
  stepN (emaStep p xs) (xs.length - b.length) b

/-- A JS array cell holding `null` or a number, viewed as a scalar input
value (used when `MACD` feeds its own `base` column to `MovingAverage.calc`). -/
def optJV : Option JF → JV
  | some x => JV.num x
  | none => JV.nonnum

/-- The five output columns of `MovingAverageConvergenceDivergence`. -/
structure MacdState where
  base : List (Option JF)
  short : List (Option JF)
  long : List (Option JF)
  signal : List (Option JF)
  hist : List (Option JF)
deriving DecidableEq

/-- Fresh MACD columns. -/
def macdInit : MacdState := ⟨[], [], [], [], []⟩

/-- The cell computation of one MACD iteration, split on the scalar read
at the cursor (`i = s.base.length`). -/
def macdCell (sp lp sgp : ℕ) (xs : List JV) (s : MacdState) : JV → MacdState
  | JV.nonnum =>
      ⟨s.base ++ [none], s.short ++ [none], s.long ++ [none],
        s.signal ++ [none], s.hist ++ [none]⟩
  | JV.num x =>
    let i := s.base.length
    let short : Option JF :=
      if (i : ℤ) = (sp : ℤ) - 1 then maCalc ((xs.take (i + 1)).drop (i + 1 - sp))
      else if (sp : ℤ) ≤ (i : ℤ) then
        emaCalcJS (some x) (if i = 0 then none else s.short.getD (i - 1) none) sp
      else none
    let long : Option JF :=
      if (i : ℤ) = (lp : ℤ) - 1 then maCalc ((xs.take (i + 1)).drop (i + 1 - lp))
      else if (lp : ℤ) ≤ (i : ℤ) then
        emaCalcJS (some x) (if i = 0 then none else s.long.getD (i - 1) none) lp
      else none
    let base : Option JF :=
      match short, long with
      | some a, some b => some (jsub a b)
      | _, _ => none
    let base1 := s.base ++ [base]
    let signal : Option JF :=
      if (i : ℤ) = (lp : ℤ) + (sgp : ℤ) - 2 then
        maCalc (((base1.take (i + 1)).drop (i + 1 - sgp)).map optJV)
      else if (lp : ℤ) + (sgp : ℤ) - 2 < (i : ℤ) then
        emaCalcJS base (if i = 0 then none else s.signal.getD (i - 1) none) sgp
      else none
    let hist : Option JF :=
      match base, signal with
      | some a, some b => some (jsub a b)
      | _, _ => none
    ⟨base1, s.short ++ [short], s.long ++ [long], s.signal ++ [signal], s.hist ++ [hist]⟩

/-- One iteration of the `MovingAverageConvergenceDivergence.push` loop at
`i = base.length`.  The constructor forces `shortPeriod`, `longPeriod` and
`signalPeriod` to be positive, which keeps the `slice` starts non-negative. -/
def macdStep (sp lp sgp : ℕ) (xs : List JV) (s : MacdState) : MacdState :=
  macdCell sp lp sgp xs s (xs.getD s.base.length JV.nonnum)

/-- Model of `MovingAverageConvergenceDivergence.push(numberArray)`. -/
def macdPush (sp lp sgp : ℕ) (s : MacdState) (xs : List JV) : MacdState :=
  stepN (macdStep sp lp sgp xs) (xs.length - s.base.length) s

/-- The three output columns of `RelativeStrengthIndex`. -/
structure RsiState where
  base : List (Option JF)
  gain : List (Option JF)
  loss : List (Option JF)
deriving DecidableEq

/-- Fresh RSI columns. -/
def rsiInit : RsiState := ⟨[], [], []⟩

/-- Model of `array.slice(-p)`: the trailing `p` elements (`slice(-0)` is the whole
array, as in JS). -/
def sliceNeg (l : List (Option JF)) (p : ℕ) : List (Option JF) :=
  if p = 0 then l else l.drop (l.length - p)

/-- Model of `array.reduce((a, b) => a + b, 0)` over cells that may hold `null`:
JS coerces `null` to `0` in `+`. -/
def jsumLoose (l : List (Option JF)) : JF :=
  l.foldl (fun a o => jadd a (o.getD (JF.fin 0))) (JF.fin 0)

/-- The cell computation of one RSI iteration, split on the current and
previous scalar reads. -/
def rsiCell (p : ℕ) (s : RsiState) : JV → JV → RsiState
  | JV.num cx, JV.num px =>
      let change := jsub cx px
      let g := jmax change (JF.fin 0)
      let l := jmax (jneg change) (JF.fin 0)
      let gain1 := s.gain ++ [some g]
      let loss1 := s.loss ++ [some l]
      let rsi : Option JF :=
        if p ≤ gain1.length then
          let avgGain := jdiv (jsumLoose (sliceNeg gain1 p)) (JF.fin p)
          let avgLoss := jdiv (jsumLoose (sliceNeg loss1 p)) (JF.fin p)
          let rs := if avgLoss = JF.fin 0 then JF.fin 100 else jdiv avgGain avgLoss
          some (jsub (JF.fin 100) (jdiv (JF.fin 100) (jadd (JF.fin 1) rs)))
        else none
      ⟨s.base ++ [rsi], gain1, loss1⟩
  | _, _ => ⟨s.base ++ [none], s.gain ++ [none], s.loss ++ [none]⟩

/-- One iteration of the `RelativeStrengthIndex.push` loop at
`i = base.length` (at `i = 0` the previous element reads as `undefined`). -/
def rsiStep (p : ℕ) (xs : List JV) (s : RsiState) : RsiState :=
  rsiCell p s (xs.getD s.base.length JV.nonnum)
    (if s.base.length = 0 then JV.nonnum else xs.getD (s.base.length - 1) JV.nonnum)

/-- Model of `RelativeStrengthIndex.push(numberArray)`. -/
def rsiPush (p : ℕ) (s : RsiState) (xs : List JV) : RsiState :=
  stepN (rsiStep p xs) (xs.length - s.base.length) s

/-- A candle, as read by `AverageTrueRange` / `SuperTrend`: only `high`,
`low` and `close` are consumed; `close` may be absent (`?? hl2` fallback). -/
structure Candle where
  high : JF
  low : JF
  close : Option JF
deriving DecidableEq

/-- Model of `(high + low) / 2`. -/
def hl2 (c : Candle) : JF := jdiv (jadd c.high c.low) (JF.fin 2)

/-- Model of `value.close ?? (high + low) / 2`. -/
def closeD (c : Candle) : JF := c.close.getD (hl2 c)

/-- The `base` (ATR) and `range` (true range) columns plus `prevClose`. -/
structure AtrState where
  base : List JF
  range : List JF
  prevClose : Option JF
deriving DecidableEq

/-- A fresh `AverageTrueRange`. -/
def atrInit : AtrState := ⟨[], [], none⟩

/-- The true range one ATR bar computes:
`Math.max(high - low, |high - prevClose|, |low - prevClose|)` with the
stored previous close defaulting to the current bar's `(high + low) / 2`. -/
def trOf (s : AtrState) (c : Candle) : JF :=
  let prevClose := s.prevClose.getD (jdiv (jadd c.high c.low) (JF.fin 2))
  jmax (jsub c.high c.low)
    (jmax (jabs (jsub c.high prevClose)) (jabs (jsub c.low prevClose)))

/-- The ATR cell one bar appends: `NaN` during warmup, the first mean at
the `p`-th sample, Wilder smoothing after (the true-range column already
holds the current bar's value when the length is tested). -/
def atrCell (p : ℕ) (s : AtrState) (c : Candle) : JF :=
  if s.range.length + 1 < p then JF.nan
  else if s.range.length + 1 = p then
    jdiv (jsum ((s.range ++ [trOf s c]).take p)) (JF.fin p)
  else
    jdiv (jadd (jmul ((lastOpt s.base).getD JF.nan) (JF.fin ((p : ℚ) - 1))) (trOf s c))
      (JF.fin p)

/-- One bar of `AverageTrueRange.push`: compute the true range, append it,
then append the ATR cell (`NaN` during warmup, first mean at the `p`-th
sample, Wilder smoothing after). -/
def atrStep (p : ℕ) (s : AtrState) (c : Candle) : AtrState :=
  let close := closeD c
  let tr := trOf s c
  let range1 := s.range ++ [tr]
  let atrv : JF :=
    if range1.length < p then JF.nan
    else if range1.length = p then jdiv (jsum (range1.take p)) (JF.fin p)
    else jdiv (jadd (jmul ((lastOpt s.base).getD JF.nan) (JF.fin ((p : ℚ) - 1))) tr)
        (JF.fin p)
  ⟨s.base ++ [atrv], range1, some close⟩

/-- Model of `AverageTrueRange.push(priceArray)` — every element of the argument is
processed (there is no cursor). -/
def atrPush (p : ℕ) (s : AtrState) (cs : List Candle) : AtrState :=
  cs.foldl (atrStep p) s

/-- Model of `SuperTrend`'s own output columns on top of its inherited ATR state. -/
structure StState where
  atr : AtrState
  upper : List JF
  lower : List JF
  trend : List (Option ℤ)
deriving DecidableEq

/-- A fresh `SuperTrend`. -/
def stInit : StState := ⟨atrInit, [], [], []⟩

/-- The loop-local `prevUpper` / `prevLower` / `prevTrend` of
`SuperTrend.push`.  They are (re)read from the column ends at call entry
and are *not* updated by the `continue` of the `!isFinite(atr)` branch. -/
structure StLocals where
  pu : Option JF
  pl : Option JF
  pt : Option ℤ
deriving DecidableEq

/-- Re-derive the loop locals from the column ends (`array.at(-1)`;
`prevTrend == null` matches both `undefined` and the stored `null`). -/
def stLocalsOf (s : StState) : StLocals :=
  ⟨lastOpt s.upper, lastOpt s.lower,
    match lastOpt s.trend with
    | some (some t) => some t
    | _ => none⟩

/-- JS `a > b` where `b` may be `undefined`. -/
def jgtOpt (x : JF) : Option JF → Bool
  | some v => jgt x v
  | none => false

/-- JS `a < b` where `b` may be `undefined`. -/
def jltOpt (x : JF) : Option JF → Bool
  | some v => jlt x v
  | none => false

/-- The trend decision of `SuperTrend.push`: `+1` when no previous trend
exists, `+1` on a close above the previous upper band, `-1` on a close
below the previous lower band, else the previous trend. -/
def stTrend (L : StLocals) (close : JF) : ℤ :=
  if L.pt = none then 1
  else if jgtOpt close L.pu then 1
  else if jltOpt close L.pl then -1
  else L.pt.getD 1

/-- The published upper band:
`(trend === 1 && prevUpper != null) ? Math.min(upperBand, prevUpper) : upperBand`. -/
def stUpperCell (L : StLocals) (ub : JF) (trend : ℤ) : JF :=
  if trend = 1 ∧ L.pu ≠ none then jmin ub (L.pu.getD JF.nan) else ub

/-- The published lower band:
`(trend === -1 && prevLower != null) ? Math.max(lowerBand, prevLower) : lowerBand`. -/
def stLowerCell (L : StLocals) (lb : JF) (trend : ℤ) : JF :=
  if trend = -1 ∧ L.pl ≠ none then jmax lb (L.pl.getD JF.nan) else lb

/-- One bar of `SuperTrend.push`, threading the loop locals. -/
def stStep (p : ℕ) (m : ℚ) : StState × StLocals → Candle → StState × StLocals :=
  fun sl c =>
    let s := sl.1
    let L := sl.2
    let atr1 := atrStep p s.atr c
    let a := (lastOpt atr1.base).getD JF.nan
    if a = JF.nan then
      (⟨atr1, s.upper ++ [JF.nan], s.lower ++ [JF.nan], s.trend ++ [none]⟩, L)
    else
      let upperBand := jadd (hl2 c) (jmul (JF.fin m) a)
      let lowerBand := jsub (hl2 c) (jmul (JF.fin m) a)
      let trend := stTrend L (closeD c)
      let finalUpper := stUpperCell L upperBand trend
      let finalLower := stLowerCell L lowerBand trend
      (⟨atr1, s.upper ++ [finalUpper], s.lower ++ [finalLower], s.trend ++ [some trend]⟩,
        ⟨some finalUpper, some finalLower, some trend⟩)

/-- Model of `SuperTrend.push(priceArray)` — every element of the argument is
processed (`super.push([price])` advances the inherited ATR per bar). -/
def stPush (p : ℕ) (m : ℚ) (s : StState) (cs : List Candle) : StState :=
  (cs.foldl (stStep p m) (s, stLocalsOf s)).1

/-- The full run of `SuperTrend.push` on a fresh indicator, keeping the
final loop locals (on a fresh indicator the initial locals are all
`undefined`/`null`). -/
def stRun (p : ℕ) (m : ℚ) (cs : List Candle) : StState × StLocals :=
  cs.foldl (stStep p m) (stInit, ⟨none, none, none⟩)

/-- Lift a rational to a numeric scalar-input value. -/
def liftQ (q : ℚ) : JV := JV.num (JF.fin q)

/-- Lift a rational sequence to a scalar input array. -/
def liftL (xs : List ℚ) : List JV := xs.map liftQ

/-- The candles of the end-to-end ATR scenario in the spec. -/
def exC1 : Candle := ⟨JF.fin 10, JF.fin 8, some (JF.fin 9)⟩

/-- Second candle of the scenario. -/
def exC2 : Candle := ⟨JF.fin 11, JF.fin 9, some (JF.fin 10)⟩

/-- Third candle of the scenario. -/
def exC3 : Candle := ⟨JF.fin 12, JF.fin 10, some (JF.fin 11)⟩

/-!
## The replay scenario (`CryptoTradeScenario`)

The wallet is the JS object `{symbol: balance}`; reading an absent entry
yields `undefined`, which the order callback immediately normalizes with
`wallet[sym] = wallet[sym] || 0` before any test or mutation, so a total
function defaulting to `0` models it exactly (on rationals `x || 0` is the
identity: only `0`, `NaN` and `undefined` are falsy).
-/

/-- An order side, the first argument of the strategy's `action` callback. -/
inductive Side where
  | buy : Side
  | sell : Side
deriving DecidableEq

/-- Pointwise update of a wallet entry. -/
def wSet (w : String → ℚ) (k : String) (x : ℚ) : String → ℚ :=
  fun s => if s = k then x else w s

/-- The order callback handed to strategies by `CryptoTradeScenario.start`,
for the current candle `(hi, lo, cl)` of the pair `(sym1, sym2)`.
Mirrors the source: non-positive `value` returns immediately; a buy
executes at `(high + close) / 2` when `wallet[sym2] >= value`; a sell
executes at `(low + close) / 2` when `wallet[sym1] >= quantity`; the two
mutations of an accepted order happen in sequence. -/
def orderExec (sym1 sym2 : String) (hi lo cl : ℚ) (w : String → ℚ) :
    Side → ℚ → (String → ℚ) :=
  fun side v =>
    if v ≤ 0 then w
    else
      match side with
      | Side.buy =>
          let priceAvg := (hi + cl) / 2
          let amount := v / priceAvg
          if v ≤ w sym2 then
            wSet (wSet w sym2 (w sym2 - v)) sym1 ((wSet w sym2 (w sym2 - v)) sym1 + amount)
          else w
      | Side.sell =>
          let priceAvg := (lo + cl) / 2
          let q := v / priceAvg
          if q ≤ w sym1 then
            wSet (wSet w sym1 (w sym1 - q)) sym2 ((wSet w sym1 (w sym1 - q)) sym2 + v)
          else w

/-- One strategy-issued order together with the candle it executes against. -/
structure Order where
  side : Side
  sym1 : String
  sym2 : String
  value : ℚ
  hi : ℚ
  lo : ℚ
  cl : ℚ

/-- Apply one order through the callback. -/
def applyOrder (w : String → ℚ) (o : Order) : String → ℚ :=
  orderExec o.sym1 o.sym2 o.hi o.lo o.cl w o.side o.value

/-- Apply a sequence of orders in the order they were issued. -/
def applyOrders (w : String → ℚ) (os : List Order) : String → ℚ :=
  os.foldl applyOrder w

/-- A data-source function: `(symbol1, symbol2, limit) -> raw records`.
The asynchrony of the JS version is irrelevant to the fetched data. -/
abbrev ApiFn : Type := String → String → ℕ → List RawObj

/-- The configuration state of `CryptoTradeScenario` that `start` consults:
registered pairs, the wallet, the data-source function (`null` when unset
or set from a non-function) and the history limit. -/
structure Scenario where
  pairs : List (String × String)
  wallet : String → ℚ
  api : Option ApiFn
  limit : ℕ

/-- The constructor state: no pairs, empty wallet, `api = null`,
`limit = 100`. -/
def mkScenario : Scenario := ⟨[], fun _ => 0, none, 100⟩

/-- Model of `setAPI(fn)`: stores the function, or `null` when handed a
non-function (`none` models the non-function argument). -/
def setAPI (s : Scenario) (f : Option ApiFn) : Scenario := { s with api := f }

/-- The fetch fan-out `start` performs first: one data-source call per
registered pair with the configured limit.  (The tick loop that follows is
wall-clock paced and out of scope, per the spec; nothing of it happens
when `start` throws.) -/
def startFetchPlan (s : Scenario) (f : ApiFn) : List ((String × String) × List RawObj) :=
  s.pairs.map (fun pr => (pr, f pr.1 pr.2 s.limit))

/-- Model of `CryptoTradeScenario.start`: throws `'API not set'` before any fetch
when no data source is configured, otherwise proceeds to the fetch fan-out. -/
def start (s : Scenario) : Except String (List ((String × String) × List RawObj)) :=
  match s.api with
  | none => Except.error "API not set"
  | some f => Except.ok (startFetchPlan s f)

/-!
## Specification-side formulas

The following definitions transcribe the *spec's* closed-form recurrences
(§4.3 of the specification); the claim theorems below compare the embedded
code against them.
-/

/-- Spec EMA: the seed `mean(xs[0..p-1])` up to index `p - 1`, then
`(input[i] - ema[i-1]) * α + ema[i-1]` with `α = 2 / (p + 1)`. -/
def specEMA (p : ℕ) (xs : List ℚ) : ℕ → ℚ
  | 0 => (xs.take p).sum / p
  | i + 1 =>
    if i + 2 ≤ p then (xs.take p).sum / p
    else (xs.getD (i + 1) 0 - specEMA p xs i) * (2 / ((p : ℚ) + 1)) + specEMA p xs i

/-- Spec gain sample at index `j`: `max(Δ, 0)` over the consecutive
difference ending at `j` (`0` at `j = 0`, where no difference exists). -/
def specGain (xs : List ℚ) (j : ℕ) : ℚ := max (xs.getD j 0 - xs.getD (j - 1) 0) 0

/-- Spec loss sample at index `j`: `max(-Δ, 0)`. -/
def specLoss (xs : List ℚ) (j : ℕ) : ℚ := max (xs.getD (j - 1) 0 - xs.getD j 0) 0

/-- Rolling mean of the trailing `p` gain samples at index `i`. -/
def rsiAvgGain (p : ℕ) (xs : List ℚ) (i : ℕ) : ℚ :=
  ((List.range' (i + 1 - p) p).map (specGain xs)).sum / p

/-- Rolling mean of the trailing `p` loss samples at index `i`. -/
def rsiAvgLoss (p : ℕ) (xs : List ℚ) (i : ℕ) : ℚ :=
  ((List.range' (i + 1 - p) p).map (specLoss xs)).sum / p

/-- The RSI value the *code* produces once `p` samples exist: the code
substitutes `RS = 100` when the average loss is zero (yielding
`100 - 100/101`, not the spec's `100`), else `100 - 100/(1 + RS)`. -/
def rsiSpec (p : ℕ) (xs : List ℚ) (i : ℕ) : ℚ :=
  if rsiAvgLoss p xs i = 0 then 100 - 100 / (1 + 100)
  else 100 - 100 / (1 + rsiAvgGain p xs i / rsiAvgLoss p xs i)

/-- Spec previous close at bar `i` of a candle sequence: the own bar's
`hl2` at `i = 0`, else the previous bar's close (`?? hl2`). -/
def prevCloseAt (cs : List Candle) (i : ℕ) (c : Candle) : JF :=
  if i = 0 then hl2 c else closeD (cs.getD (i - 1) c)

/-- Spec true range at bar `i`:
`max(high - low, |high - prevClose|, |low - prevClose|)`. -/
def trAt (cs : List Candle) (i : ℕ) (c : Candle) : JF :=
  jmax (jsub c.high c.low)
    (jmax (jabs (jsub c.high (prevCloseAt cs i c))) (jabs (jsub c.low (prevCloseAt cs i c))))

/-- Spec raw upper band `hl2 + m * ATR`. -/
def rawUpper (m : ℚ) (c : Candle) (a : JF) : JF := jadd (hl2 c) (jmul (JF.fin m) a)

/-- Spec raw lower band `hl2 - m * ATR`. -/
def rawLower (m : ℚ) (c : Candle) (a : JF) : JF := jsub (hl2 c) (jmul (JF.fin m) a)

/-!
## Claim-conclusion predicates

Each predicate states one claim's conclusion over the embedded code, so
the theorem and its witness can share the statement.
-/

/-- Conclusion of the amended cursor claim: the four scalar indicators are
cursor-incremental (pushing a prefix first changes nothing), while ATR and
SuperTrend append one output row per element of *every* call's argument,
so re-pushing already-seen bars appends duplicate rows. -/
def CursorClaim (p sp lp sgp rp : ℕ) (xs ys : List JV) : Prop :=
  maPush p (maPush p [] xs) ys = maPush p [] ys
  ∧ emaPush p (emaPush p [] xs) ys = emaPush p [] ys
  ∧ macdPush sp lp sgp (macdPush sp lp sgp macdInit xs) ys = macdPush sp lp sgp macdInit ys
  ∧ rsiPush rp (rsiPush rp rsiInit xs) ys = rsiPush rp rsiInit ys
  ∧ (∀ (q : ℕ) (s : AtrState) (cs : List Candle),
      (atrPush q s cs).base.length = s.base.length + cs.length)
  ∧ (∀ (q : ℕ) (m : ℚ) (s : StState) (cs : List Candle),
      (stPush q m s cs).upper.length = s.upper.length + cs.length)

/-- Conclusion of the EMA claim (claim 7): cell `i` is `null` before index
`p - 1`, the seed at `p - 1` is the simple mean of the first `p` inputs,
every later cell satisfies the EMA recurrence with `α = 2/(p+1)`, and all
defined cells agree with the spec recurrence `specEMA`. -/
def EmaClaim (p : ℕ) (xs : List ℚ) : Prop :=
  (emaPush p [] (liftL xs)).length = xs.length
  ∧ (∀ i : ℕ, i + 1 < p → i < xs.length → (emaPush p [] (liftL xs))[i]? = some none)
  ∧ (p ≤ xs.length →
      (emaPush p [] (liftL xs))[p - 1]? = some (some (JF.fin ((xs.take p).sum / p))))
  ∧ (∀ i : ℕ, p ≤ i → i < xs.length →
      (emaPush p [] (liftL xs))[i]? =
        some (some (JF.fin
          ((xs.getD i 0 - specEMA p xs (i - 1)) * (2 / ((p : ℚ) + 1)) + specEMA p xs (i - 1)))))
  ∧ (∀ i : ℕ, p - 1 ≤ i → i < xs.length →
      (emaPush p [] (liftL xs))[i]? = some (some (JF.fin (specEMA p xs i))))

/-- Conclusion of the amended RSI claim (claim 5): gain/loss columns hold
the spec samples, and from index `p` on (at least `p` true samples) the
output equals `rsiSpec` — `100 - 100/101` when the trailing average loss
is zero, else the claimed `100 - 100/(1 + avgGain/avgLoss)`. -/
def RsiClaim (p : ℕ) (xs : List ℚ) : Prop :=
  (rsiPush p rsiInit (liftL xs)).base.length = xs.length
  ∧ (∀ j : ℕ, 1 ≤ j → j < xs.length →
      (rsiPush p rsiInit (liftL xs)).gain[j]? = some (some (JF.fin (specGain xs j)))
      ∧ (rsiPush p rsiInit (liftL xs)).loss[j]? = some (some (JF.fin (specLoss xs j))))
  ∧ (∀ i : ℕ, p ≤ i → i < xs.length →
      (rsiPush p rsiInit (liftL xs)).base[i]? = some (some (JF.fin (rsiSpec p xs i))))

/-- Conclusion of the ATR claim (claim 6): the `range` column holds the
spec true ranges (previous close seeded from the first bar's `hl2`), the
output is `NaN` while fewer than `p` samples exist, equals the mean of the
first `p` true ranges at the `p`-th sample, and follows Wilder smoothing
after. -/
def AtrClaim (p : ℕ) (cs : List Candle) : Prop :=
  (atrPush p atrInit cs).base.length = cs.length
  ∧ (atrPush p atrInit cs).range.length = cs.length
  ∧ (∀ (i : ℕ) (c : Candle), cs[i]? = some c → (atrPush p atrInit cs).range[i]? = some (trAt cs i c))
  ∧ (∀ i : ℕ, i + 1 < p → i < cs.length → (atrPush p atrInit cs).base[i]? = some JF.nan)
  ∧ (p ≤ cs.length →
      (atrPush p atrInit cs).base[p - 1]? =
        some (jdiv (jsum ((atrPush p atrInit cs).range.take p)) (JF.fin p)))
  ∧ (∀ (i : ℕ) (prev t : JF), p ≤ i →
      (atrPush p atrInit cs).base[i - 1]? = some prev →
      (atrPush p atrInit cs).range[i]? = some t →
      (atrPush p atrInit cs).base[i]? =
        some (jdiv (jadd (jmul prev (JF.fin ((p : ℚ) - 1))) t) (JF.fin p)))

/-- Conclusion of the SuperTrend claim (claim 4), for one `push` call with
the whole candle sequence: undefined-ATR bars publish `NaN` bands and a
`null` trend; the first defined-ATR bar starts the trend at `+1` with the
raw bands; while the trend persists the published band is the ratcheted
`min`/`max` against the previous published band. -/
def StClaim (p : ℕ) (m : ℚ) (cs : List Candle) : Prop :=
  (stPush p m stInit cs).upper.length = cs.length
  ∧ (stPush p m stInit cs).lower.length = cs.length
  ∧ (stPush p m stInit cs).trend.length = cs.length
  ∧ (stPush p m stInit cs).atr.base.length = cs.length
  ∧ (∀ i : ℕ, (stPush p m stInit cs).atr.base[i]? = some JF.nan →
      (stPush p m stInit cs).upper[i]? = some JF.nan
      ∧ (stPush p m stInit cs).lower[i]? = some JF.nan
      ∧ (stPush p m stInit cs).trend[i]? = some none)
  ∧ (∀ (i : ℕ) (c : Candle) (a : JF), cs[i]? = some c → (stPush p m stInit cs).atr.base[i]? = some a → a ≠ JF.nan →
      (∀ j : ℕ, j < i → (stPush p m stInit cs).atr.base[j]? = some JF.nan) →
      (stPush p m stInit cs).trend[i]? = some (some 1)
      ∧ (stPush p m stInit cs).upper[i]? = some (rawUpper m c a)
      ∧ (stPush p m stInit cs).lower[i]? = some (rawLower m c a))
  ∧ (∀ (i : ℕ) (c : Candle) (a u : JF), cs[i + 1]? = some c → (stPush p m stInit cs).atr.base[i + 1]? = some a →
      (stPush p m stInit cs).trend[i]? = some (some 1) →
      (stPush p m stInit cs).trend[i + 1]? = some (some 1) →
      (stPush p m stInit cs).upper[i]? = some u →
      (stPush p m stInit cs).upper[i + 1]? = some (jmin (rawUpper m c a) u))
  ∧ (∀ (i : ℕ) (c : Candle) (a l : JF), cs[i + 1]? = some c → (stPush p m stInit cs).atr.base[i + 1]? = some a →
      (stPush p m stInit cs).trend[i]? = some (some (-1)) →
      (stPush p m stInit cs).trend[i + 1]? = some (some (-1)) →
      (stPush p m stInit cs).lower[i]? = some l →
      (stPush p m stInit cs).lower[i + 1]? = some (jmax (rawLower m c a) l))

/-- Conclusion of the ledger claim (claim 8): rejected orders (non-positive
amount, insufficient `sym2` funds on a buy, insufficient `sym1` quantity on
a sell) leave the wallet unchanged; accepted orders debit and credit
exactly as specified, in sequence. -/
def LedgerClaim (sym1 sym2 : String) (hi lo cl : ℚ) (w : String → ℚ) (v : ℚ) : Prop :=
  (v ≤ 0 → orderExec sym1 sym2 hi lo cl w Side.buy v = w
      ∧ orderExec sym1 sym2 hi lo cl w Side.sell v = w)
  ∧ (w sym2 < v → orderExec sym1 sym2 hi lo cl w Side.buy v = w)
  ∧ (w sym1 < v / ((lo + cl) / 2) → orderExec sym1 sym2 hi lo cl w Side.sell v = w)
  ∧ (0 < v → v ≤ w sym2 →
      orderExec sym1 sym2 hi lo cl w Side.buy v =
        wSet (wSet w sym2 (w sym2 - v)) sym1
          ((wSet w sym2 (w sym2 - v)) sym1 + v / ((hi + cl) / 2)))
  ∧ (0 < v → v / ((lo + cl) / 2) ≤ w sym1 →
      orderExec sym1 sym2 hi lo cl w Side.sell v =
        wSet (wSet w sym1 (w sym1 - v / ((lo + cl) / 2))) sym2
          ((wSet w sym1 (w sym1 - v / ((lo + cl) / 2))) sym2 + v))

/-- Conclusion of the wallet non-negativity claim (claim 10). -/
def NonnegClaim (w : String → ℚ) (os : List Order) : Prop :=
  ∀ s, 0 ≤ applyOrders w os s

/-- An example order used to witness the wallet claims. -/
def exOrder : Order := ⟨Side.buy, "BTC", "USDT", 4, 2, 1, 1⟩

/-- The intended content of the EMA `base` cell at index `i` on an
all-numeric input: `null` strictly before `p - 1`, the spec recurrence
value after. -/
def emaOutSpec (p : ℕ) (xs : List ℚ) (i : ℕ) : Option JF :=
  if (i : ℤ) < (p : ℤ) - 1 then none else some (JF.fin (specEMA p xs i))

/-- The intended content of the RSI `gain` cell at index `i`. -/
def rsiGainOut (xs : List ℚ) (i : ℕ) : Option JF :=
  if i = 0 then none else some (JF.fin (specGain xs i))

/-- The intended content of the RSI `loss` cell at index `i`. -/
def rsiLossOut (xs : List ℚ) (i : ℕ) : Option JF :=
  if i = 0 then none else some (JF.fin (specLoss xs i))

/-- The intended content of the RSI `base` cell at index `i` on an
all-numeric input: `null` at index `0` and while fewer than `p` cells
exist, the (code's) RSI value after. -/
def rsiBaseOut (p : ℕ) (xs : List ℚ) (i : ℕ) : Option JF :=
  if i = 0 then none
  else if i + 1 < p then none
  else some (JF.fin (rsiSpec p xs i))

/-!
## Helper lemmas
-/

theorem stepN_add {σ : Type} (f : σ → σ) (m n : ℕ) (s : σ) :
    stepN f (m + n) s = stepN f n (stepN f m s) := by
  induction m generalizing s with
  | zero => simp [stepN]
  | succ k ih =>
      have : k + 1 + n = (k + n) + 1 := by omega
      rw [this]
      show stepN f (k + n) (f s) = stepN f n (stepN f k (f s))
      exact ih (f s)

theorem stepN_len {σ : Type} (f : σ → σ) (len : σ → ℕ)
    (hf : ∀ s, len (f s) = len s + 1) (n : ℕ) (s : σ) :
    len (stepN f n s) = len s + n := by
  induction n generalizing s with
  | zero => simp [stepN]
  | succ k ih =>
      show len (stepN f k (f s)) = len s + (k + 1)
      rw [ih (f s), hf s]
      omega

theorem stepN_congr {σ : Type} (f g : σ → σ) (len : σ → ℕ) (N : ℕ)
    (hf : ∀ s, len (f s) = len s + 1)
    (hfg : ∀ s, len s < N → f s = g s) :
    ∀ (n : ℕ) (s : σ), len s + n ≤ N → stepN f n s = stepN g n s := by
  intro n
  induction n with
  | zero => intro s _; rfl
  | succ k ih =>
      intro s hs
      have h1 : len s < N := by omega
      show stepN f k (f s) = stepN g k (g s)
      rw [← hfg s h1]
      exact ih (f s) (by rw [hf s]; omega)

theorem take_app {α : Type} (xs t : List α) (k : ℕ) (h : k ≤ xs.length) :
    (xs ++ t).take k = xs.take k := by
  induction xs generalizing k with
  | nil =>
      have hk : k = 0 := Nat.le_zero.mp (by simpa using h)
      subst hk
      simp
  | cons a l ih =>
      cases k with
      | zero => simp
      | succ j => simp only [List.cons_append, List.take_succ_cons]
                  rw [ih j (by simpa using h)]

theorem getD_app {α : Type} (xs t : List α) (i : ℕ) (d : α) (h : i < xs.length) :
    (xs ++ t).getD i d = xs.getD i d := by
  induction xs generalizing i with
  | nil => simp at h
  | cons a l ih =>
      cases i with
      | zero => simp
      | succ j => simp only [List.cons_append, List.getD_cons_succ]
                  exact ih j (by simpa using h)

theorem snocGet_lt {α : Type} (l : List α) (x : α) (i : ℕ) (h : i < l.length) :
    (l ++ [x])[i]? = l[i]? := by
  induction l generalizing i with
  | nil => simp at h
  | cons a t ih =>
      cases i with
      | zero => simp
      | succ j => simpa using ih j (by simpa using h)

theorem snocGet_last {α : Type} (l : List α) (x : α) :
    (l ++ [x])[l.length]? = some x := by
  induction l with
  | nil => simp
  | cons a t ih => simpa using ih

theorem lastOpt_snoc {α : Type} (l : List α) (x : α) : lastOpt (l ++ [x]) = some x := by
  induction l with
  | nil => rfl
  | cons a t ih =>
      cases t with
      | nil => rfl
      | cons b u => simpa [lastOpt] using ih

theorem atr_base_len (p : ℕ) (s : AtrState) (cs : List Candle) :
    (atrPush p s cs).base.length = s.base.length + cs.length := by
  induction cs generalizing s with
  | nil => simp [atrPush]
  | cons c rest ih =>
      show (atrPush p (atrStep p s c) rest).base.length = s.base.length + (rest.length + 1)
      rw [ih (atrStep p s c)]
      simp [atrStep]
      omega

theorem stStep_upper_len (p : ℕ) (m : ℚ) (sl : StState × StLocals) (c : Candle) :
    (stStep p m sl c).1.upper.length = sl.1.upper.length + 1 := by
  simp only [stStep]
  split <;> simp

theorem st_upper_len (p : ℕ) (m : ℚ) (cs : List Candle) :
    ∀ sl : StState × StLocals,
      (cs.foldl (stStep p m) sl).1.upper.length = sl.1.upper.length + cs.length := by
  induction cs with
  | nil => intro sl; simp
  | cons c rest ih =>
      intro sl
      show (rest.foldl (stStep p m) (stStep p m sl c)).1.upper.length = _
      rw [ih (stStep p m sl c), stStep_upper_len]
      simp
      omega

/-- The common shape of the scalar-indicator cursor argument: a `push`
with the extended input, run after a `push` with a prefix of it, equals a
single `push` with the extended input, because every loop iteration below
the cursor computes the same cell from either input. -/
theorem cursor_push_pre {σ : Type} (step1 step2 : σ → σ) (len : σ → ℕ) (init : σ)
    (n1 n2 : ℕ) (hn : n1 ≤ n2)
    (hlen2 : ∀ s, len (step2 s) = len s + 1)
    (hinit : len init = 0)
    (hagree : ∀ s, len s < n1 → step2 s = step1 s) :
    stepN step2 (n2 - len (stepN step1 (n1 - len init) init)) (stepN step1 (n1 - len init) init)
      = stepN step2 (n2 - len init) init := by
  have e1 : stepN step2 n1 init = stepN step1 n1 init :=
    stepN_congr step2 step1 len n1 hlen2 hagree n1 init (by omega)
  rw [hinit, Nat.sub_zero, Nat.sub_zero, ← e1,
    stepN_len step2 len hlen2 n1 init, hinit, ← stepN_add]
  congr 1
  omega

theorem maStep_len (p : ℕ) (xs : List JV) (b : List (Option JF)) :
    (maStep p xs b).length = b.length + 1 := by
  simp [maStep]

theorem maStep_agree (p : ℕ) (xs t : List JV) (b : List (Option JF))
    (hb : b.length < xs.length) : maStep p (xs ++ t) b = maStep p xs b := by
  unfold maStep maEntry
  rw [take_app xs t (b.length + 1) (by omega)]

theorem emaStep_len (p : ℕ) (xs : List JV) (b : List (Option JF)) :
    (emaStep p xs b).length = b.length + 1 := by
  simp [emaStep]

theorem emaStep_agree (p : ℕ) (xs t : List JV) (b : List (Option JF))
    (hb : b.length < xs.length) : emaStep p (xs ++ t) b = emaStep p xs b := by
  unfold emaStep emaEntry
  rw [getD_app xs t b.length JV.nonnum hb]
  cases xs.getD b.length JV.nonnum with
  | nonnum => rfl
  | num x =>
      simp only [emaCell]
      rw [take_app xs t (b.length + 1) (by omega)]

theorem macdStep_len (sp lp sgp : ℕ) (xs : List JV) (s : MacdState) :
    (macdStep sp lp sgp xs s).base.length = s.base.length + 1 := by
  unfold macdStep
  cases xs.getD s.base.length JV.nonnum with
  | num x => simp [macdCell]
  | nonnum => simp [macdCell]

theorem macdStep_agree (sp lp sgp : ℕ) (xs t : List JV) (s : MacdState)
    (hb : s.base.length < xs.length) :
    macdStep sp lp sgp (xs ++ t) s = macdStep sp lp sgp xs s := by
  unfold macdStep
  rw [getD_app xs t s.base.length JV.nonnum hb]
  cases xs.getD s.base.length JV.nonnum with
  | nonnum => rfl
  | num x =>
      simp only [macdCell]
      rw [take_app xs t (s.base.length + 1) (by omega)]

theorem rsiStep_len (p : ℕ) (xs : List JV) (s : RsiState) :
    (rsiStep p xs s).base.length = s.base.length + 1 := by
  unfold rsiStep
  cases xs.getD s.base.length JV.nonnum with
  | num cx =>
      cases (if s.base.length = 0 then JV.nonnum else xs.getD (s.base.length - 1) JV.nonnum) with
      | num px => simp [rsiCell]
      | nonnum => simp [rsiCell]
  | nonnum =>
      cases (if s.base.length = 0 then JV.nonnum else xs.getD (s.base.length - 1) JV.nonnum) with
      | num px => simp [rsiCell]
      | nonnum => simp [rsiCell]

theorem rsiStep_agree (p : ℕ) (xs t : List JV) (s : RsiState)
    (hb : s.base.length < xs.length) :
    rsiStep p (xs ++ t) s = rsiStep p xs s := by
  unfold rsiStep
  rw [getD_app xs t s.base.length JV.nonnum hb]
  by_cases h0 : s.base.length = 0
  · simp only [h0, if_true, reduceIte]
  · simp only [h0, if_false, reduceIte]
    rw [getD_app xs t (s.base.length - 1) JV.nonnum (by omega)]

theorem stepN_succ_last {σ : Type} (f : σ → σ) (k : ℕ) (s : σ) :
    stepN f (k + 1) s = f (stepN f k s) :=
  stepN_add f k 1 s

theorem maPush_pre (p : ℕ) (xs t : List JV) :
    maPush p (maPush p [] xs) (xs ++ t) = maPush p [] (xs ++ t) := by
  unfold maPush
  exact cursor_push_pre (maStep p xs) (maStep p (xs ++ t)) List.length []
    xs.length (xs ++ t).length (by simp) (maStep_len p (xs ++ t)) rfl
    (fun s hs => maStep_agree p xs t s hs)

theorem emaPush_pre (p : ℕ) (xs t : List JV) :
    emaPush p (emaPush p [] xs) (xs ++ t) = emaPush p [] (xs ++ t) := by
  unfold emaPush
  exact cursor_push_pre (emaStep p xs) (emaStep p (xs ++ t)) List.length []
    xs.length (xs ++ t).length (by simp) (emaStep_len p (xs ++ t)) rfl
    (fun s hs => emaStep_agree p xs t s hs)

theorem macdPush_pre (sp lp sgp : ℕ) (xs t : List JV) :
    macdPush sp lp sgp (macdPush sp lp sgp macdInit xs) (xs ++ t)
      = macdPush sp lp sgp macdInit (xs ++ t) := by
  unfold macdPush
  exact cursor_push_pre (macdStep sp lp sgp xs) (macdStep sp lp sgp (xs ++ t))
    (fun s => s.base.length) macdInit xs.length (xs ++ t).length (by simp)
    (macdStep_len sp lp sgp (xs ++ t)) rfl
    (fun s hs => macdStep_agree sp lp sgp xs t s hs)

theorem rsiPush_pre (rp : ℕ) (xs t : List JV) :
    rsiPush rp (rsiPush rp rsiInit xs) (xs ++ t) = rsiPush rp rsiInit (xs ++ t) := by
  unfold rsiPush
  exact cursor_push_pre (rsiStep rp xs) (rsiStep rp (xs ++ t))
    (fun s => s.base.length) rsiInit xs.length (xs ++ t).length (by simp)
    (rsiStep_len rp (xs ++ t)) rfl
    (fun s hs => rsiStep_agree rp xs t s hs)

/-- Claim C3, amended: the cursor property (a second `update` with an
extended input equals one `update` with the extension) holds for the four
scalar indicators; ATR and SuperTrend have no cursor and instead append
one output row per element of every call's argument. -/
theorem claim3_amended_cursor (p sp lp sgp rp : ℕ) (xs ys : List JV) (h : xs <+: ys) :
    CursorClaim p sp lp sgp rp xs ys := by
  obtain ⟨t, rfl⟩ := h
  refine ⟨maPush_pre p xs t, emaPush_pre p xs t, macdPush_pre sp lp sgp xs t,
    rsiPush_pre rp xs t, ?_, ?_⟩
  · intro q s cs
    exact atr_base_len q s cs
  · intro q m s cs
    have := st_upper_len q m cs (s, stLocalsOf s)
    simpa [stPush] using this

/-- Witness for the amended claim C3 at a concrete prefix pair. -/
theorem claim3_amended_cursor_witness :
    ([JV.num (JF.fin 1)] <+: [JV.num (JF.fin 1), JV.num (JF.fin 2)])
    ∧ CursorClaim 2 12 26 9 14 [JV.num (JF.fin 1)] [JV.num (JF.fin 1), JV.num (JF.fin 2)] :=
  ⟨⟨[JV.num (JF.fin 2)], rfl⟩,
    claim3_amended_cursor 2 12 26 9 14 [JV.num (JF.fin 1)]
      [JV.num (JF.fin 1), JV.num (JF.fin 2)] ⟨[JV.num (JF.fin 2)], rfl⟩⟩

/-- Counterexample to claim C3 as stated: re-invoking `AverageTrueRange`'s
`push` with the already-seen input appends a duplicate row instead of no
row, so the two-call state differs from the one-call state. -/
theorem claim3_atr_repush_counterexample :
    atrPush 1 (atrPush 1 atrInit [exC1]) [exC1] ≠ atrPush 1 atrInit [exC1] := by
  intro h
  have h2 := congrArg (fun st => st.base.length) h
  simp [atr_base_len, atrInit] at h2

/-- Claim C1 (code evaluated at the failing input): pushing a batch of
three rows into an empty store with limit `2` leaves three rows — the
eviction runs before the append and can only drop existing rows — while a
two-row batch lands exactly at the limit. -/
theorem claim1_push_exceeds_capacity :
    amLength (klinesPush 2 [] [exRawIdx, exRawIdx, exRawIdx]) = 3
    ∧ ¬ amLength (klinesPush 2 [] [exRawIdx, exRawIdx, exRawIdx]) ≤ 2
    ∧ amLength (klinesPush 2 [] [exRawIdx, exRawIdx]) = 2 := by decide

/-- Claim C2 (code evaluated at the failing input): a lowercase full-word
candle record is "normalized" to a record whose keys are the derived
source names `hl2/hlc3/ohlc4/hlcc4` with `NaN` values — not the canonical
`timestamp/open/high/low/close` record the spec describes — because
`keysOut = source.slice(6, 10)`. -/
theorem claim2_invert_wrong_keys :
    Klines.invert [exRawCandle] =
      [[("hl2", JF.nan), ("hlc3", JF.nan), ("ohlc4", JF.nan), ("hlcc4", JF.nan)]] := by decide

/-!
## EMA characterization (claim C7)
-/

theorem liftL_length (xs : List ℚ) : (liftL xs).length = xs.length := by
  simp [liftL]

theorem liftL_getD (xs : List ℚ) (k : ℕ) (h : k < xs.length) :
    (liftL xs).getD k JV.nonnum = JV.num (JF.fin (xs.getD k 0)) := by
  induction xs generalizing k with
  | nil => simp at h
  | cons a l ih =>
      cases k with
      | zero => simp [liftL, liftQ]
      | succ j =>
          simp only [liftL, List.map_cons, List.getD_cons_succ]
          exact ih j (by simpa using h)

theorem jsum_fin_acc (l : List ℚ) :
    ∀ acc : ℚ, List.foldl jadd (JF.fin acc) (l.map JF.fin) = JF.fin (acc + l.sum) := by
  induction l with
  | nil => intro acc; simp
  | cons a t ih =>
      intro acc
      simp only [List.map_cons, List.foldl_cons, jadd]
      rw [ih (acc + a)]
      congr 1
      simp
      ring

theorem jsum_fin (l : List ℚ) : jsum (l.map JF.fin) = JF.fin l.sum := by
  have := jsum_fin_acc l 0
  simpa [jsum] using this

theorem maCalc_lift (l : List ℚ) :
    maCalc (liftL l) = some (jdiv (JF.fin l.sum) (JF.fin l.length)) := by
  unfold maCalc
  have hfil : (liftL l).filter JV.isNum = liftL l := by
    apply List.filter_eq_self.mpr
    intro a ha
    simp only [liftL, List.mem_map] at ha
    obtain ⟨q, _, rfl⟩ := ha
    rfl
  rw [hfil]
  have hmap : (liftL l).map JV.toJF = l.map JF.fin := by
    simp [liftL, liftQ, JV.toJF, List.map_map, Function.comp]
  simp only [lt_self_iff_false, if_false, hmap, jsum_fin, liftL_length]

theorem rangeMap_getElem? {α : Type} (f : ℕ → α) (k j : ℕ) (h : j < k) :
    ((List.range k).map f)[j]? = some (f j) := by
  rw [List.getElem?_map, List.getElem?_range h]
  rfl

theorem rangeMap_getD {α : Type} (f : ℕ → α) (k j : ℕ) (d : α) (h : j < k) :
    ((List.range k).map f).getD j d = f j := by
  rw [List.getD_eq_getElem?_getD, rangeMap_getElem? f k j h]
  rfl

theorem specEMA_seed (p : ℕ) (xs : List ℚ) (i : ℕ) (h : i + 1 ≤ p) :
    specEMA p xs i = (xs.take p).sum / p := by
  cases i with
  | zero => simp [specEMA]
  | succ j =>
      have hj : j + 2 ≤ p := by omega
      simp [specEMA, hj]

theorem specEMA_rec (p : ℕ) (xs : List ℚ) (i : ℕ) (h : p ≤ i) (h1 : 1 ≤ p) :
    specEMA p xs i =
      (xs.getD i 0 - specEMA p xs (i - 1)) * (2 / ((p : ℚ) + 1)) + specEMA p xs (i - 1) := by
  cases i with
  | zero => omega
  | succ j =>
      have hj : ¬ (j + 2 ≤ p) := by omega
      simp [specEMA, hj]

theorem emaCellEq (p : ℕ) (xs : List ℚ) (hp : 1 ≤ p) (n : ℕ) (hn : n < xs.length) :
    emaEntry p (liftL xs) ((List.range n).map (emaOutSpec p xs)) = emaOutSpec p xs n := by
  have hlen : ((List.range n).map (emaOutSpec p xs)).length = n := by simp
  unfold emaEntry
  rw [hlen, liftL_getD xs n hn]
  simp only [emaCell, hlen]
  by_cases h1 : (n : ℤ) < (p : ℤ) - 1
  · have h1n : n + 1 < p := by omega
    simp [h1, emaOutSpec]
  · by_cases h2 : (n : ℤ) = (p : ℤ) - 1
    · have hnp : n + 1 = p := by omega
      simp only [h1, if_false, h2, if_true]
      have hdrop0 : n + 1 - p = 0 := by omega
      rw [hdrop0, List.drop_zero,
        show (liftL xs).take (n + 1) = liftL (xs.take (n + 1)) from by simp [liftL],
        maCalc_lift]
      have hlen2 : (xs.take (n + 1)).length = n + 1 := by
        rw [List.length_take]
        omega
      have hpne : ((n + 1 : ℕ) : ℚ) ≠ 0 := by
        exact_mod_cast Nat.succ_ne_zero n
      simp only [emaOutSpec, h1, if_false, hlen2, jdiv, hpne, if_false]
      rw [specEMA_seed p xs n (by omega), hnp]
      simp
    · have hnp : p ≤ n := by omega
      have hn0 : n ≠ 0 := by omega
      simp only [h1, h2, if_false, hn0]
      rw [rangeMap_getD (emaOutSpec p xs) n (n - 1) none (by omega)]
      have h3 : ¬ ((n - 1 : ℕ) : ℤ) < (p : ℤ) - 1 := by omega
      simp only [emaOutSpec, h3, if_false, emaCalcJS, jsub, jmul, jadd, h1]
      rw [specEMA_rec p xs n hnp hp]

theorem emaChar (p : ℕ) (xs : List ℚ) (hp : 1 ≤ p) :
    ∀ k, k ≤ xs.length →
      stepN (emaStep p (liftL xs)) k [] = (List.range k).map (emaOutSpec p xs) := by
  intro k
  induction k with
  | zero => intro _; simp [stepN]
  | succ n ih =>
      intro hk
      have hn : n ≤ xs.length := by omega
      rw [stepN_succ_last, ih hn, List.range_succ, List.map_append]
      unfold emaStep
      rw [emaCellEq p xs hp n (by omega)]
      simp

/-- Claim C7: the EMA column is `null` strictly before index `p - 1`, is
seeded with the simple mean of the first `p` inputs at `p - 1`, and
satisfies `(input[i] - ema[i-1])·α + ema[i-1]` with `α = 2/(p+1)` from
index `p` on; all defined cells equal the spec recurrence `specEMA`. -/
theorem claim7_ema (p : ℕ) (xs : List ℚ) (hp : 1 ≤ p) : EmaClaim p xs := by
  have hchar : emaPush p [] (liftL xs) = (List.range xs.length).map (emaOutSpec p xs) := by
    unfold emaPush
    have hl : (liftL xs).length - ([] : List (Option JF)).length = xs.length := by
      simp [liftL]
    rw [hl]
    exact emaChar p xs hp xs.length le_rfl
  refine ⟨?_, ?_, ?_, ?_, ?_⟩
  · rw [hchar]; simp
  · intro i h1 h2
    rw [hchar, rangeMap_getElem? _ _ _ h2]
    have : (i : ℤ) < (p : ℤ) - 1 := by omega
    simp [emaOutSpec, this]
  · intro h
    rw [hchar, rangeMap_getElem? _ _ _ (by omega)]
    have h3 : ¬ ((p - 1 : ℕ) : ℤ) < (p : ℤ) - 1 := by omega
    simp [emaOutSpec, h3, specEMA_seed p xs (p - 1) (by omega)]
  · intro i h1 h2
    rw [hchar, rangeMap_getElem? _ _ _ h2]
    have hlt : ¬ (i : ℤ) < (p : ℤ) - 1 := by omega
    simp [emaOutSpec, hlt, specEMA_rec p xs i h1 hp]
  · intro i h1 h2
    rw [hchar, rangeMap_getElem? _ _ _ h2]
    have hlt : ¬ (i : ℤ) < (p : ℤ) - 1 := by omega
    simp [emaOutSpec, hlt]

/-- Witness for claim C7 at period 2 over a concrete input. -/
theorem claim7_ema_witness : 1 ≤ 2 ∧ EmaClaim 2 [1, 2, 3] :=
  ⟨by norm_num, claim7_ema 2 [1, 2, 3] (by norm_num)⟩

/-!
## RSI characterization (claim C5)
-/

theorem range'_drop : ∀ (n a d : ℕ), (List.range' a n).drop d = List.range' (a + d) (n - d) := by
  intro n
  induction n with
  | zero => intro a d; simp
  | succ m ih =>
      intro a d
      cases d with
      | zero => simp
      | succ e =>
          rw [List.range'_succ]
          show (List.range' (a + 1) m).drop e = _
          rw [ih (a + 1) e]
          congr 1 <;> omega

theorem rangeMap_drop {α : Type} (f : ℕ → α) (k d : ℕ) :
    ((List.range k).map f).drop d = (List.range' d (k - d)).map f := by
  rw [← List.map_drop, List.range_eq_range', range'_drop]
  simp

theorem jsumLoose_map (f : ℕ → ℚ) (F : ℕ → Option JF)
    (hF : ∀ j, (F j = none ∧ f j = 0) ∨ F j = some (JF.fin (f j))) :
    ∀ (is : List ℕ) (acc : ℚ),
      (is.map F).foldl (fun a o => jadd a (o.getD (JF.fin 0))) (JF.fin acc)
        = JF.fin (acc + (is.map f).sum) := by
  intro is
  induction is with
  | nil => intro acc; simp
  | cons j t ih =>
      intro acc
      rcases hF j with ⟨hj, hf⟩ | hj
      · rw [List.map_cons, List.foldl_cons, hj]
        rw [show jadd (JF.fin acc) ((none : Option JF).getD (JF.fin 0)) = JF.fin (acc + 0) from
          rfl]
        rw [ih (acc + 0)]
        congr 1
        rw [List.map_cons, List.sum_cons, hf]
        ring
      · rw [List.map_cons, List.foldl_cons, hj]
        rw [show jadd (JF.fin acc) ((some (JF.fin (f j))).getD (JF.fin 0)) = JF.fin (acc + f j)
          from rfl]
        rw [ih (acc + f j)]
        congr 1
        rw [List.map_cons, List.sum_cons]
        ring

theorem specGain_zero (xs : List ℚ) : specGain xs 0 = 0 := by
  simp [specGain]

theorem specLoss_zero (xs : List ℚ) : specLoss xs 0 = 0 := by
  simp [specLoss]

theorem specGain_nonneg (xs : List ℚ) (j : ℕ) : 0 ≤ specGain xs j :=
  le_max_right _ 0

theorem specLoss_nonneg (xs : List ℚ) (j : ℕ) : 0 ≤ specLoss xs j :=
  le_max_right _ 0

theorem gainOut_spec (xs : List ℚ) :
    ∀ j, (rsiGainOut xs j = none ∧ specGain xs j = 0) ∨
      rsiGainOut xs j = some (JF.fin (specGain xs j)) := by
  intro j
  by_cases h : j = 0
  · subst h
    exact Or.inl ⟨by simp [rsiGainOut], specGain_zero xs⟩
  · exact Or.inr (by simp [rsiGainOut, h])

theorem lossOut_spec (xs : List ℚ) :
    ∀ j, (rsiLossOut xs j = none ∧ specLoss xs j = 0) ∨
      rsiLossOut xs j = some (JF.fin (specLoss xs j)) := by
  intro j
  by_cases h : j = 0
  · subst h
    exact Or.inl ⟨by simp [rsiLossOut], specLoss_zero xs⟩
  · exact Or.inr (by simp [rsiLossOut, h])

theorem avg_eval (p : ℕ) (xs : List ℚ) (n : ℕ) (hp : 1 ≤ p) (hpn : p ≤ n + 1)
    (f : ℕ → ℚ) (F : ℕ → Option JF)
    (hF : ∀ j, (F j = none ∧ f j = 0) ∨ F j = some (JF.fin (f j))) :
    jdiv (jsumLoose (sliceNeg ((List.range (n + 1)).map F) p)) (JF.fin p)
      = JF.fin (((List.range' (n + 1 - p) p).map f).sum / p) := by
  have hp0 : p ≠ 0 := by omega
  have hlen : ((List.range (n + 1)).map F).length = n + 1 := by simp
  rw [sliceNeg, if_neg hp0, hlen, rangeMap_drop]
  have hcount : n + 1 - (n + 1 - p) = p := by omega
  rw [hcount]
  unfold jsumLoose
  rw [jsumLoose_map f F hF (List.range' (n + 1 - p) p) 0]
  have hq : ((p : ℕ) : ℚ) ≠ 0 := by exact_mod_cast hp0
  simp [jdiv, hq]

theorem rsiValue_eval (p : ℕ) (xs : List ℚ) (n : ℕ) (hp : 1 ≤ p) (hpn : p ≤ n + 1) :
    jsub (JF.fin 100)
      (jdiv (JF.fin 100)
        (jadd (JF.fin 1)
          (if JF.fin (rsiAvgLoss p xs n) = JF.fin 0 then JF.fin 100
            else jdiv (JF.fin (rsiAvgGain p xs n)) (JF.fin (rsiAvgLoss p xs n)))))
      = JF.fin (rsiSpec p xs n) := by
  have hGnn : 0 ≤ rsiAvgGain p xs n := by
    apply div_nonneg _ (by positivity)
    apply List.sum_nonneg
    intro a ha
    simp only [List.mem_map] at ha
    obtain ⟨j, _, rfl⟩ := ha
    exact specGain_nonneg xs j
  have hLnn : 0 ≤ rsiAvgLoss p xs n := by
    apply div_nonneg _ (by positivity)
    apply List.sum_nonneg
    intro a ha
    simp only [List.mem_map] at ha
    obtain ⟨j, _, rfl⟩ := ha
    exact specLoss_nonneg xs j
  by_cases hL : rsiAvgLoss p xs n = 0
  · simp only [hL, if_true, reduceIte, jadd, jdiv, jsub, rsiSpec]
    norm_num
  · have hfin : ¬ JF.fin (rsiAvgLoss p xs n) = JF.fin 0 := by simp [hL]
    have hpos : 0 < rsiAvgLoss p xs n := lt_of_le_of_ne hLnn (Ne.symm hL)
    have hrs : 0 ≤ rsiAvgGain p xs n / rsiAvgLoss p xs n := div_nonneg hGnn hLnn
    have h1 : (1 : ℚ) + rsiAvgGain p xs n / rsiAvgLoss p xs n ≠ 0 := by linarith
    simp only [hfin, if_false, reduceIte, jdiv, hL, if_false, jadd]
    simp only [h1, if_false, reduceIte, jsub, rsiSpec, hL]

theorem rsiChar (p : ℕ) (xs : List ℚ) (hp : 1 ≤ p) :
    ∀ k, k ≤ xs.length →
      stepN (rsiStep p (liftL xs)) k rsiInit =
        ⟨(List.range k).map (rsiBaseOut p xs), (List.range k).map (rsiGainOut xs),
          (List.range k).map (rsiLossOut xs)⟩ := by
  intro k
  induction k with
  | zero => intro _; simp [stepN, rsiInit]
  | succ n ih =>
      intro hk
      rw [stepN_succ_last, ih (by omega)]
      unfold rsiStep
      have hblen : (RsiState.mk ((List.range n).map (rsiBaseOut p xs))
          ((List.range n).map (rsiGainOut xs))
          ((List.range n).map (rsiLossOut xs))).base.length = n := by simp
      rw [hblen, liftL_getD xs n (by omega)]
      by_cases h0 : n = 0
      · subst h0
        simp only [if_true, reduceIte]
        simp [rsiCell, List.range_succ, rsiBaseOut, rsiGainOut, rsiLossOut]
      · rw [if_neg h0, liftL_getD xs (n - 1) (by omega)]
        simp only [rsiCell]
        have hGn : (List.range n).map (rsiGainOut xs) ++
            [some (jmax (jsub (JF.fin (xs.getD n 0)) (JF.fin (xs.getD (n - 1) 0))) (JF.fin 0))]
            = (List.range (n + 1)).map (rsiGainOut xs) := by
          rw [List.range_succ, List.map_append]
          simp [jsub, jmax, rsiGainOut, h0, specGain]
        have hLn : (List.range n).map (rsiLossOut xs) ++
            [some (jmax (jneg (jsub (JF.fin (xs.getD n 0)) (JF.fin (xs.getD (n - 1) 0)))) (JF.fin 0))]
            = (List.range (n + 1)).map (rsiLossOut xs) := by
          rw [List.range_succ, List.map_append]
          simp only [jsub, jneg, jmax, rsiLossOut, h0, if_false, specLoss, List.map_cons,
            List.map_nil, reduceIte]
          congr 3
          ring
        rw [hGn, hLn]
        have hglen : ((List.range (n + 1)).map (rsiGainOut xs)).length = n + 1 := by simp
        rw [hglen]
        by_cases hpn : p ≤ n + 1
        · rw [if_pos hpn,
            avg_eval p xs n hp hpn (specGain xs) (rsiGainOut xs) (gainOut_spec xs),
            avg_eval p xs n hp hpn (specLoss xs) (rsiLossOut xs) (lossOut_spec xs)]
          have := rsiValue_eval p xs n hp hpn
          rw [show ((List.range' (n + 1 - p) p).map (specGain xs)).sum / (p : ℚ)
              = rsiAvgGain p xs n from rfl,
            show ((List.range' (n + 1 - p) p).map (specLoss xs)).sum / (p : ℚ)
              = rsiAvgLoss p xs n from rfl, this]
          rw [List.range_succ, List.map_append]
          have : rsiBaseOut p xs n = some (JF.fin (rsiSpec p xs n)) := by
            simp [rsiBaseOut, h0]
            omega
          simp [this]
        · rw [if_neg hpn]
          rw [List.range_succ, List.map_append]
          have : rsiBaseOut p xs n = none := by
            simp [rsiBaseOut, h0]
            omega
          simp [this]

/-- Claim C5, amended: the gain/loss columns hold the claimed samples and,
once at least `p` samples exist, the output is `100 - 100/(1 + 100)` when
the trailing average loss is zero (the code substitutes `RS = 100`), and
the claimed `100 - 100/(1 + avgGain/avgLoss)` otherwise. -/
theorem claim5_amended_rsi (p : ℕ) (xs : List ℚ) (hp : 1 ≤ p) : RsiClaim p xs := by
  have hchar : rsiPush p rsiInit (liftL xs) =
      ⟨(List.range xs.length).map (rsiBaseOut p xs),
        (List.range xs.length).map (rsiGainOut xs),
        (List.range xs.length).map (rsiLossOut xs)⟩ := by
    unfold rsiPush
    have h1 : (liftL xs).length - rsiInit.base.length = xs.length := by
      simp [liftL, rsiInit]
    rw [h1]
    exact rsiChar p xs hp xs.length le_rfl
  refine ⟨?_, ?_, ?_⟩
  · rw [hchar]
    simp
  · intro j h1 h2
    rw [hchar]
    dsimp only
    rw [rangeMap_getElem? _ _ _ h2, rangeMap_getElem? _ _ _ h2]
    have hj : j ≠ 0 := by omega
    exact ⟨by simp [rsiGainOut, hj], by simp [rsiLossOut, hj]⟩
  · intro i h1 h2
    rw [hchar]
    dsimp only
    rw [rangeMap_getElem? _ _ _ h2]
    have hi0 : i ≠ 0 := by omega
    have hi1 : ¬ (i + 1 < p) := by omega
    simp [rsiBaseOut, hi0, hi1]

/-- Witness for the amended claim C5 at period 2 over a concrete input. -/
theorem claim5_amended_rsi_witness : 1 ≤ 2 ∧ RsiClaim 2 [1, 2, 3] :=
  ⟨by norm_num, claim5_amended_rsi 2 [1, 2, 3] (by norm_num)⟩

/-- Counterexample to claim C5 as stated: with period 1 and inputs
`[1, 2]` the trailing average loss at index 1 is `0`, yet the output is
`100 - 100/101 = 10000/101`, not the claimed `100`. -/
theorem claim5_rsi_counterexample :
    rsiAvgLoss 1 [1, 2] 1 = 0
    ∧ (rsiPush 1 rsiInit (liftL [1, 2])).base[1]? = some (some (JF.fin (10000 / 101)))
    ∧ (10000 / 101 : ℚ) ≠ 100 := by
  refine ⟨?_, ?_, by norm_num⟩
  · norm_num [rsiAvgLoss, List.range', specLoss]
  · norm_num [rsiPush, rsiInit, liftL, liftQ, stepN, rsiStep, rsiCell, jsub, jmax, jneg,
      jadd, jdiv, jsumLoose, sliceNeg]

/-!
## ATR characterization (claim C6)
-/

theorem lastOpt_eq {α : Type} : ∀ l : List α, lastOpt l = l[l.length - 1]? := by
  intro l
  induction l with
  | nil => rfl
  | cons x t ih =>
      cases t with
      | nil => rfl
      | cons y u =>
          show lastOpt (y :: u) = _
          rw [ih]
          simp only [List.length_cons]
          rw [show u.length + 1 + 1 - 1 = (u.length + 1 - 1) + 1 from by omega,
            List.getElem?_cons_succ]

theorem atrPush_snoc (p : ℕ) (s : AtrState) (cs : List Candle) (c : Candle) :
    atrPush p s (cs ++ [c]) = atrStep p (atrPush p s cs) c := by
  simp [atrPush, List.foldl_append]

theorem atrStep_base (p : ℕ) (s : AtrState) (c : Candle) :
    (atrStep p s c).base = s.base ++
      [if s.range.length + 1 < p then JF.nan
        else if s.range.length + 1 = p then
          jdiv (jsum (((s.range ++ [trOf s c]).take p))) (JF.fin p)
        else
          jdiv (jadd (jmul ((lastOpt s.base).getD JF.nan) (JF.fin ((p : ℚ) - 1))) (trOf s c))
            (JF.fin p)] := by
  simp [atrStep, trOf]

theorem atrStep_range (p : ℕ) (s : AtrState) (c : Candle) :
    (atrStep p s c).range = s.range ++ [trOf s c] := by
  simp [atrStep, trOf]

theorem atrStep_prevClose (p : ℕ) (s : AtrState) (c : Candle) :
    (atrStep p s c).prevClose = some (closeD c) := by
  simp [atrStep]

theorem atrChar (p : ℕ) (hp : 1 ≤ p) (cs : List Candle) :
    (atrPush p atrInit cs).base.length = cs.length
    ∧ (atrPush p atrInit cs).range.length = cs.length
    ∧ (cs.length = 0 → (atrPush p atrInit cs).prevClose = none)
    ∧ (∀ c0 : Candle, cs[cs.length - 1]? = some c0 →
        (atrPush p atrInit cs).prevClose = some (closeD c0))
    ∧ (∀ (i : ℕ) (c : Candle), cs[i]? = some c →
        (atrPush p atrInit cs).range[i]? = some (trAt cs i c))
    ∧ (∀ i : ℕ, i + 1 < p → i < cs.length → (atrPush p atrInit cs).base[i]? = some JF.nan)
    ∧ (p ≤ cs.length → (atrPush p atrInit cs).base[p - 1]? =
        some (jdiv (jsum ((atrPush p atrInit cs).range.take p)) (JF.fin p)))
    ∧ (∀ (i : ℕ) (prev t : JF), p ≤ i →
        (atrPush p atrInit cs).base[i - 1]? = some prev →
        (atrPush p atrInit cs).range[i]? = some t →
        (atrPush p atrInit cs).base[i]? =
          some (jdiv (jadd (jmul prev (JF.fin ((p : ℚ) - 1))) t) (JF.fin p))) := by
  induction cs using List.reverseRecOn with
  | nil =>
      refine ⟨rfl, rfl, fun _ => rfl, fun c0 h => by simp at h, fun i c h => by simp at h,
        fun i h1 h2 => by simp at h2, fun h => by simp at h; omega,
        fun i prev t h1 h2 h3 => ?_⟩
      simp [atrPush, atrInit] at h3
  | append_singleton cs c ih =>
      obtain ⟨hbl, hrl, hpc0, hpcL, hrange, hwarm, hseed, hwild⟩ := ih
      have hsnoc := atrPush_snoc p atrInit cs c
      have hpc : (atrPush p atrInit cs).prevClose.getD (jdiv (jadd c.high c.low) (JF.fin 2))
          = prevCloseAt (cs ++ [c]) cs.length c := by
        cases hcs : cs.length with
        | zero =>
            rw [hpc0 hcs]
            unfold prevCloseAt hl2
            simp
        | succ n =>
            have hn : n < cs.length := by omega
            obtain ⟨c0, hc0⟩ : ∃ c0, cs[n]? = some c0 := by
              rw [List.getElem?_eq_getElem hn]
              exact ⟨cs[n], rfl⟩
            have := hpcL c0 (by rw [hcs]; simpa using hc0)
            rw [this]
            unfold prevCloseAt
            rw [if_neg (by omega : ¬ (n + 1 = 0))]
            simp only [Option.getD_some, Nat.add_sub_cancel]
            rw [List.getD_eq_getElem?_getD, snocGet_lt cs c n hn, hc0]
            rfl
      have htr : trOf (atrPush p atrInit cs) c = trAt (cs ++ [c]) cs.length c := by
        unfold trOf trAt
        rw [hpc]
      refine ⟨?_, ?_, ?_, ?_, ?_, ?_, ?_, ?_⟩
      · rw [hsnoc, atrStep_base]
        simp [hbl]
      · rw [hsnoc, atrStep_range]
        simp [hrl]
      · intro h
        simp at h
      · intro c0 h
        rw [hsnoc, atrStep_prevClose]
        have : (cs ++ [c])[(cs ++ [c]).length - 1]? = some c := by
          simp only [List.length_append, List.length_singleton, Nat.add_sub_cancel]
          exact snocGet_last cs c
        rw [this] at h
        cases h
        rfl
      · intro i cc h
        rw [hsnoc, atrStep_range, htr]
        by_cases hi : i < cs.length
        · rw [snocGet_lt _ _ _ (by rw [hrl]; exact hi)]
          rw [snocGet_lt cs c i hi] at h
          rw [hrange i cc h]
          have heq : trAt (cs ++ [c]) i cc = trAt cs i cc := by
            unfold trAt prevCloseAt
            by_cases hi0 : i = 0
            · simp [hi0]
            · rw [if_neg hi0, if_neg hi0,
                List.getD_eq_getElem?_getD, List.getD_eq_getElem?_getD,
                snocGet_lt cs c (i - 1) (by omega)]
          rw [heq]
        · have hieq : i = cs.length := by
            by_contra hne
            have hgt : cs.length + 1 ≤ i := by omega
            rw [List.getElem?_eq_none (by simpa using hgt)] at h
            cases h
          subst hieq
          rw [snocGet_last cs c] at h
          cases h
          rw [show cs.length = (atrPush p atrInit cs).range.length from hrl.symm,
            snocGet_last]
      · intro i h1 h2
        rw [hsnoc, atrStep_base]
        by_cases hi : i < cs.length
        · rw [snocGet_lt _ _ _ (by rw [hbl]; exact hi)]
          exact hwarm i h1 hi
        · have hieq : i = cs.length := by
            simp only [List.length_append, List.length_singleton] at h2
            omega
          subst hieq
          rw [show cs.length = (atrPush p atrInit cs).base.length from hbl.symm,
            snocGet_last, hrl, if_pos h1]
      · intro h
        rw [hsnoc, atrStep_base, atrStep_range]
        by_cases hps : p ≤ cs.length
        · rw [snocGet_lt _ _ _ (by rw [hbl]; omega)]
          rw [take_app _ _ p (by rw [hrl]; exact hps)]
          exact hseed hps
        · have hpe : p = cs.length + 1 := by
            simp only [List.length_append, List.length_singleton] at h
            omega
          have hidx : p - 1 = cs.length := by omega
          rw [hidx,
            show cs.length = (atrPush p atrInit cs).base.length from hbl.symm,
            snocGet_last, hrl, if_neg (by omega), if_pos hpe.symm]
      · intro i prev t h1 h2 h3
        rw [hsnoc, atrStep_base] at h2 ⊢
        rw [hsnoc, atrStep_range] at h3
        by_cases hi : i < cs.length
        · rw [snocGet_lt _ _ _ (by rw [hbl]; omega)] at h2
          rw [snocGet_lt _ _ _ (by rw [hrl]; exact hi)] at h3
          rw [snocGet_lt _ _ _ (by rw [hbl]; exact hi)]
          exact hwild i prev t h1 h2 h3
        · by_cases hieq : i = cs.length
          · subst hieq
            have hlen1 : 1 ≤ cs.length := by omega
            rw [snocGet_lt _ _ _ (by rw [hbl]; omega)] at h2
            rw [show cs.length = (atrPush p atrInit cs).range.length from hrl.symm,
              snocGet_last] at h3
            have ht := Option.some.inj h3
            rw [show cs.length = (atrPush p atrInit cs).base.length from hbl.symm,
              snocGet_last, hrl, if_neg (by omega), if_neg (by omega)]
            rw [lastOpt_eq, hbl, h2, ht]
            rfl
          · have hgt : cs.length + 1 ≤ i := by omega
            rw [List.getElem?_eq_none (by simp [hrl]; omega)] at h3
            cases h3

/-- Claim C6: the true-range column holds
`max(high-low, |high-prevClose|, |low-prevClose|)` with `prevClose` seeded
from the first bar's `hl2`; the ATR output is `NaN` below `p` samples, the
mean of the first `p` true ranges at the `p`-th, and Wilder-smoothed
after; and the spec's three-candle scenario with `p = 2` yields
`[NaN, 2, 2]`. -/
theorem claim6_atr (p : ℕ) (cs : List Candle) (hp : 1 ≤ p) :
    AtrClaim p cs
    ∧ (atrPush 2 atrInit [exC1, exC2, exC3]).base = [JF.nan, JF.fin 2, JF.fin 2] := by
  obtain ⟨h1, h2, _, _, h5, h6, h7, h8⟩ := atrChar p hp cs
  refine ⟨⟨h1, h2, h5, h6, h7, h8⟩, ?_⟩
  norm_num [atrPush, atrStep, trOf, atrInit, closeD, hl2, lastOpt, jmax, jsub, jabs, jadd,
    jmul, jdiv, jsum, exC1, exC2, exC3]

/-- Witness for claim C6 at period 2 over the spec's candles. -/
theorem claim6_atr_witness :
    1 ≤ 2 ∧ (AtrClaim 2 [exC1, exC2, exC3]
      ∧ (atrPush 2 atrInit [exC1, exC2, exC3]).base = [JF.nan, JF.fin 2, JF.fin 2]) :=
  ⟨by norm_num, claim6_atr 2 [exC1, exC2, exC3] (by norm_num)⟩

/-!
## SuperTrend characterization (claim C4)
-/

theorem atrStep_base_cell (p : ℕ) (s : AtrState) (c : Candle) :
    (atrStep p s c).base = s.base ++ [atrCell p s c] := by
  simp [atrStep, atrCell, trOf]

theorem atrStep_lastCell (p : ℕ) (s : AtrState) (c : Candle) :
    (lastOpt (atrStep p s c).base).getD JF.nan = atrCell p s c := by
  rw [atrStep_base_cell, lastOpt_snoc]
  rfl

theorem stStep_nan (p : ℕ) (m : ℚ) (sl : StState × StLocals) (c : Candle)
    (h : atrCell p sl.1.atr c = JF.nan) :
    stStep p m sl c =
      (⟨atrStep p sl.1.atr c, sl.1.upper ++ [JF.nan], sl.1.lower ++ [JF.nan],
        sl.1.trend ++ [none]⟩, sl.2) := by
  simp only [stStep]
  rw [atrStep_lastCell, if_pos h]

theorem stStep_fin (p : ℕ) (m : ℚ) (sl : StState × StLocals) (c : Candle)
    (h : ¬ atrCell p sl.1.atr c = JF.nan) :
    stStep p m sl c =
      (⟨atrStep p sl.1.atr c,
        sl.1.upper ++
          [stUpperCell sl.2 (rawUpper m c (atrCell p sl.1.atr c)) (stTrend sl.2 (closeD c))],
        sl.1.lower ++
          [stLowerCell sl.2 (rawLower m c (atrCell p sl.1.atr c)) (stTrend sl.2 (closeD c))],
        sl.1.trend ++ [some (stTrend sl.2 (closeD c))]⟩,
       ⟨some (stUpperCell sl.2 (rawUpper m c (atrCell p sl.1.atr c)) (stTrend sl.2 (closeD c))),
        some (stLowerCell sl.2 (rawLower m c (atrCell p sl.1.atr c)) (stTrend sl.2 (closeD c))),
        some (stTrend sl.2 (closeD c))⟩) := by
  simp only [stStep]
  rw [atrStep_lastCell, if_neg h]
  rfl

theorem stRun_snoc (p : ℕ) (m : ℚ) (cs : List Candle) (c : Candle) :
    stRun p m (cs ++ [c]) = stStep p m (stRun p m cs) c := by
  simp [stRun, List.foldl_append]

theorem stChar (p : ℕ) (m : ℚ) (cs : List Candle) :
    (stRun p m cs).1.atr = atrPush p atrInit cs
    ∧ (stRun p m cs).1.upper.length = cs.length
    ∧ (stRun p m cs).1.lower.length = cs.length
    ∧ (stRun p m cs).1.trend.length = cs.length
    ∧ (∀ i : ℕ, (stRun p m cs).1.atr.base[i]? = some JF.nan →
        (stRun p m cs).1.upper[i]? = some JF.nan
        ∧ (stRun p m cs).1.lower[i]? = some JF.nan
        ∧ (stRun p m cs).1.trend[i]? = some none)
    ∧ (∀ i : ℕ, i < cs.length → (stRun p m cs).1.atr.base[i]? ≠ some JF.nan →
        ∃ t : ℤ, (stRun p m cs).1.trend[i]? = some (some t))
    ∧ (∀ (i : ℕ) (c : Candle) (a : JF), cs[i]? = some c →
        (stRun p m cs).1.atr.base[i]? = some a → a ≠ JF.nan →
        (∀ j : ℕ, j < i → (stRun p m cs).1.atr.base[j]? = some JF.nan) →
        (stRun p m cs).1.trend[i]? = some (some 1)
        ∧ (stRun p m cs).1.upper[i]? = some (rawUpper m c a)
        ∧ (stRun p m cs).1.lower[i]? = some (rawLower m c a))
    ∧ (∀ (i : ℕ) (c : Candle) (a u : JF), cs[i + 1]? = some c →
        (stRun p m cs).1.atr.base[i + 1]? = some a →
        (stRun p m cs).1.trend[i]? = some (some 1) →
        (stRun p m cs).1.trend[i + 1]? = some (some 1) →
        (stRun p m cs).1.upper[i]? = some u →
        (stRun p m cs).1.upper[i + 1]? = some (jmin (rawUpper m c a) u))
    ∧ (∀ (i : ℕ) (c : Candle) (a l : JF), cs[i + 1]? = some c →
        (stRun p m cs).1.atr.base[i + 1]? = some a →
        (stRun p m cs).1.trend[i]? = some (some (-1)) →
        (stRun p m cs).1.trend[i + 1]? = some (some (-1)) →
        (stRun p m cs).1.lower[i]? = some l →
        (stRun p m cs).1.lower[i + 1]? = some (jmax (rawLower m c a) l))
    ∧ (((∀ i : ℕ, i < cs.length → (stRun p m cs).1.atr.base[i]? = some JF.nan)
          ∧ (stRun p m cs).2 = ⟨none, none, none⟩)
        ∨ (∃ (j : ℕ) (u l : JF) (tj : ℤ), j < cs.length
            ∧ (stRun p m cs).1.atr.base[j]? ≠ some JF.nan
            ∧ (∀ k : ℕ, j < k → k < cs.length → (stRun p m cs).1.atr.base[k]? = some JF.nan)
            ∧ (stRun p m cs).1.upper[j]? = some u
            ∧ (stRun p m cs).1.lower[j]? = some l
            ∧ (stRun p m cs).1.trend[j]? = some (some tj)
            ∧ (stRun p m cs).2 = ⟨some u, some l, some tj⟩)) := by
  induction cs using List.reverseRecOn with
  | nil =>
      refine ⟨rfl, rfl, rfl, rfl, fun i h => by simp [stRun, stInit, atrInit] at h,
        fun i h => by simp at h, fun i c a h => by simp at h,
        fun i c a u h => by simp at h, fun i c a l h => by simp at h,
        Or.inl ⟨fun i h => by simp at h, rfl⟩⟩
  | append_singleton cs c ih =>
      obtain ⟨A1, A2, A3, A4, B, B2, C, D, E, F⟩ := ih
      have hbl : (stRun p m cs).1.atr.base.length = cs.length := by
        rw [A1, atr_base_len]
        simp [atrInit]
      have hsnoc := stRun_snoc p m cs c
      by_cases hnan : atrCell p (stRun p m cs).1.atr c = JF.nan
      · -- warmup bar: NaN cells appended, locals untouched
        have hstep := stStep_nan p m (stRun p m cs) c hnan
        rw [hsnoc, hstep]
        dsimp only
        have hbase' : (atrStep p (stRun p m cs).1.atr c).base
            = (stRun p m cs).1.atr.base ++ [atrCell p (stRun p m cs).1.atr c] :=
          atrStep_base_cell p _ c
        refine ⟨?_, ?_, ?_, ?_, ?_, ?_, ?_, ?_, ?_, ?_⟩
        · rw [A1, ← atrPush_snoc]
        · simp [A2]
        · simp [A3]
        · simp [A4]
        · intro i h
          rw [hbase'] at h
          by_cases hi : i < cs.length
          · rw [snocGet_lt _ _ _ (by rw [hbl]; exact hi)] at h
            obtain ⟨hu, hl, ht⟩ := B i h
            exact ⟨by rw [snocGet_lt _ _ _ (by rw [A2]; exact hi)]; exact hu,
              by rw [snocGet_lt _ _ _ (by rw [A3]; exact hi)]; exact hl,
              by rw [snocGet_lt _ _ _ (by rw [A4]; exact hi)]; exact ht⟩
          · by_cases hieq : i = cs.length
            · subst hieq
              exact ⟨by rw [show cs.length = (stRun p m cs).1.upper.length from A2.symm,
                  snocGet_last],
                by rw [show cs.length = (stRun p m cs).1.lower.length from A3.symm,
                  snocGet_last],
                by rw [show cs.length = (stRun p m cs).1.trend.length from A4.symm,
                  snocGet_last]⟩
            · rw [List.getElem?_eq_none (by simp [hbl]; omega)] at h
              cases h
        · intro i hlt h
          rw [hbase'] at h
          simp only [List.length_append, List.length_singleton] at hlt
          by_cases hi : i < cs.length
          · rw [snocGet_lt _ _ _ (by rw [hbl]; exact hi)] at h
            obtain ⟨t, ht⟩ := B2 i hi h
            exact ⟨t, by rw [snocGet_lt _ _ _ (by rw [A4]; exact hi)]; exact ht⟩
          · have hieq : i = cs.length := by omega
            subst hieq
            rw [show cs.length = (stRun p m cs).1.atr.base.length from hbl.symm,
              snocGet_last] at h
            exact absurd (congrArg some hnan) h
        · intro i cc a hc ha hane hall
          rw [hbase'] at ha hall
          by_cases hi : i < cs.length
          · rw [snocGet_lt cs c i hi] at hc
            rw [snocGet_lt _ _ _ (by rw [hbl]; exact hi)] at ha
            have hall2 : ∀ j : ℕ, j < i → (stRun p m cs).1.atr.base[j]? = some JF.nan := by
              intro j hj
              have := hall j hj
              rwa [snocGet_lt _ _ _ (by rw [hbl]; omega)] at this
            obtain ⟨ht, hu, hl⟩ := C i cc a hc ha hane hall2
            exact ⟨by rw [snocGet_lt _ _ _ (by rw [A4]; exact hi)]; exact ht,
              by rw [snocGet_lt _ _ _ (by rw [A2]; exact hi)]; exact hu,
              by rw [snocGet_lt _ _ _ (by rw [A3]; exact hi)]; exact hl⟩
          · by_cases hieq : i = cs.length
            · subst hieq
              rw [show cs.length = (stRun p m cs).1.atr.base.length from hbl.symm,
                snocGet_last] at ha
              exact absurd (Option.some.inj ha).symm (by intro hh; exact hane (hh ▸ hnan))
            · rw [List.getElem?_eq_none (by simp; omega)] at hc
              cases hc
        · intro i cc a u hc ha ht1 ht2 hu
          rw [hbase'] at ha
          by_cases hi : i + 1 < cs.length
          · rw [snocGet_lt cs c (i + 1) hi] at hc
            rw [snocGet_lt _ _ _ (by rw [hbl]; exact hi)] at ha
            rw [snocGet_lt _ _ _ (by rw [A4]; omega)] at ht1
            rw [snocGet_lt _ _ _ (by rw [A4]; exact hi)] at ht2
            rw [snocGet_lt _ _ _ (by rw [A2]; omega)] at hu
            rw [snocGet_lt _ _ _ (by rw [A2]; exact hi)]
            exact D i cc a u hc ha ht1 ht2 hu
          · by_cases hieq : i + 1 = cs.length
            · rw [show (i + 1 : ℕ) = (stRun p m cs).1.trend.length from by
                  rw [A4]; exact hieq, snocGet_last] at ht2
              cases ht2
            · rw [List.getElem?_eq_none (by simp; omega)] at hc
              cases hc
        · intro i cc a l hc ha ht1 ht2 hl
          rw [hbase'] at ha
          by_cases hi : i + 1 < cs.length
          · rw [snocGet_lt cs c (i + 1) hi] at hc
            rw [snocGet_lt _ _ _ (by rw [hbl]; exact hi)] at ha
            rw [snocGet_lt _ _ _ (by rw [A4]; omega)] at ht1
            rw [snocGet_lt _ _ _ (by rw [A4]; exact hi)] at ht2
            rw [snocGet_lt _ _ _ (by rw [A3]; omega)] at hl
            rw [snocGet_lt _ _ _ (by rw [A3]; exact hi)]
            exact E i cc a l hc ha ht1 ht2 hl
          · by_cases hieq : i + 1 = cs.length
            · rw [show (i + 1 : ℕ) = (stRun p m cs).1.trend.length from by
                  rw [A4]; exact hieq, snocGet_last] at ht2
              cases ht2
            · rw [List.getElem?_eq_none (by simp; omega)] at hc
              cases hc
        · rcases F with ⟨hAll, hL⟩ | ⟨j, u, l, tj, hj, hjne, hgap, hju, hjl, hjt, hL⟩
          · left
            refine ⟨?_, hL⟩
            intro i hilt
            rw [hbase']
            simp only [List.length_append, List.length_singleton] at hilt
            by_cases hi : i < cs.length
            · rw [snocGet_lt _ _ _ (by rw [hbl]; exact hi)]
              exact hAll i hi
            · have hieq : i = cs.length := by omega
              subst hieq
              rw [show cs.length = (stRun p m cs).1.atr.base.length from hbl.symm,
                snocGet_last, hnan]
          · right
            refine ⟨j, u, l, tj, by simp; omega, ?_, ?_, ?_, ?_, ?_, hL⟩
            · rw [hbase', snocGet_lt _ _ _ (by rw [hbl]; exact hj)]
              exact hjne
            · intro k hk1 hk2
              rw [hbase']
              simp only [List.length_append, List.length_singleton] at hk2
              by_cases hklt : k < cs.length
              · rw [snocGet_lt _ _ _ (by rw [hbl]; exact hklt)]
                exact hgap k hk1 hklt
              · have hkeq : k = cs.length := by omega
                subst hkeq
                rw [show cs.length = (stRun p m cs).1.atr.base.length from hbl.symm,
                  snocGet_last, hnan]
            · rw [snocGet_lt _ _ _ (by rw [A2]; exact hj)]
              exact hju
            · rw [snocGet_lt _ _ _ (by rw [A3]; exact hj)]
              exact hjl
            · rw [snocGet_lt _ _ _ (by rw [A4]; exact hj)]
              exact hjt
      · -- defined ATR bar
        have hstep := stStep_fin p m (stRun p m cs) c hnan
        rw [hsnoc, hstep]
        dsimp only
        have hbase' : (atrStep p (stRun p m cs).1.atr c).base
            = (stRun p m cs).1.atr.base ++ [atrCell p (stRun p m cs).1.atr c] :=
          atrStep_base_cell p _ c
        refine ⟨?_, ?_, ?_, ?_, ?_, ?_, ?_, ?_, ?_, ?_⟩
        · rw [A1, ← atrPush_snoc]
        · simp [A2]
        · simp [A3]
        · simp [A4]
        · intro i h
          rw [hbase'] at h
          by_cases hi : i < cs.length
          · rw [snocGet_lt _ _ _ (by rw [hbl]; exact hi)] at h
            obtain ⟨hu, hl, ht⟩ := B i h
            exact ⟨by rw [snocGet_lt _ _ _ (by rw [A2]; exact hi)]; exact hu,
              by rw [snocGet_lt _ _ _ (by rw [A3]; exact hi)]; exact hl,
              by rw [snocGet_lt _ _ _ (by rw [A4]; exact hi)]; exact ht⟩
          · by_cases hieq : i = cs.length
            · subst hieq
              rw [show cs.length = (stRun p m cs).1.atr.base.length from hbl.symm,
                snocGet_last] at h
              exact absurd (Option.some.inj h) hnan
            · rw [List.getElem?_eq_none (by simp [hbl]; omega)] at h
              cases h
        · intro i hlt h
          simp only [List.length_append, List.length_singleton] at hlt
          by_cases hi : i < cs.length
          · rw [hbase', snocGet_lt _ _ _ (by rw [hbl]; exact hi)] at h
            obtain ⟨t, ht⟩ := B2 i hi h
            exact ⟨t, by rw [snocGet_lt _ _ _ (by rw [A4]; exact hi)]; exact ht⟩
          · have hieq : i = cs.length := by omega
            subst hieq
            refine ⟨stTrend (stRun p m cs).2 (closeD c), ?_⟩
            rw [show cs.length = (stRun p m cs).1.trend.length from A4.symm, snocGet_last]
        · intro i cc a hc ha hane hall
          rw [hbase'] at ha hall
          by_cases hi : i < cs.length
          · rw [snocGet_lt cs c i hi] at hc
            rw [snocGet_lt _ _ _ (by rw [hbl]; exact hi)] at ha
            have hall2 : ∀ j : ℕ, j < i → (stRun p m cs).1.atr.base[j]? = some JF.nan := by
              intro j hj
              have := hall j hj
              rwa [snocGet_lt _ _ _ (by rw [hbl]; omega)] at this
            obtain ⟨ht, hu, hl⟩ := C i cc a hc ha hane hall2
            exact ⟨by rw [snocGet_lt _ _ _ (by rw [A4]; exact hi)]; exact ht,
              by rw [snocGet_lt _ _ _ (by rw [A2]; exact hi)]; exact hu,
              by rw [snocGet_lt _ _ _ (by rw [A3]; exact hi)]; exact hl⟩
          · by_cases hieq : i = cs.length
            · subst hieq
              rw [snocGet_last cs c] at hc
              cases hc
              rw [show cs.length = (stRun p m cs).1.atr.base.length from hbl.symm,
                snocGet_last] at ha
              have haval : a = atrCell p (stRun p m cs).1.atr c := (Option.some.inj ha).symm
              have hall3 : ∀ j : ℕ, j < cs.length →
                  (stRun p m cs).1.atr.base[j]? = some JF.nan := by
                intro j hj
                have := hall j hj
                rwa [snocGet_lt _ _ _ (by rw [hbl]; exact hj)] at this
              have hLn : (stRun p m cs).2 = ⟨none, none, none⟩ := by
                rcases F with ⟨_, hL⟩ | ⟨j, u, l, tj, hj, hjne, _, _, _, _, _⟩
                · exact hL
                · exact absurd (hall3 j hj) hjne
              rw [hLn]
              have htr1 : stTrend ⟨none, none, none⟩ (closeD c) = 1 := by
                simp [stTrend]
              refine ⟨?_, ?_, ?_⟩
              · rw [show cs.length = (stRun p m cs).1.trend.length from A4.symm,
                  snocGet_last, htr1]
              · rw [show cs.length = (stRun p m cs).1.upper.length from A2.symm,
                  snocGet_last, htr1, haval]
                simp [stUpperCell]
              · rw [show cs.length = (stRun p m cs).1.lower.length from A3.symm,
                  snocGet_last, htr1, haval]
                simp [stLowerCell]
            · rw [List.getElem?_eq_none (by simp; omega)] at hc
              cases hc
        · intro i cc a u hc ha ht1 ht2 hu
          rw [hbase'] at ha
          by_cases hi : i + 1 < cs.length
          · rw [snocGet_lt cs c (i + 1) hi] at hc
            rw [snocGet_lt _ _ _ (by rw [hbl]; exact hi)] at ha
            rw [snocGet_lt _ _ _ (by rw [A4]; omega)] at ht1
            rw [snocGet_lt _ _ _ (by rw [A4]; exact hi)] at ht2
            rw [snocGet_lt _ _ _ (by rw [A2]; omega)] at hu
            rw [snocGet_lt _ _ _ (by rw [A2]; exact hi)]
            exact D i cc a u hc ha ht1 ht2 hu
          · by_cases hieq : i + 1 = cs.length
            · rw [hieq, snocGet_last cs c] at hc
              cases hc
              rw [show (i + 1 : ℕ) = (stRun p m cs).1.atr.base.length from by
                  rw [hbl]; exact hieq, snocGet_last] at ha
              have haval : a = atrCell p (stRun p m cs).1.atr c := (Option.some.inj ha).symm
              rw [snocGet_lt _ _ _ (by rw [A4]; omega)] at ht1
              rw [show (i + 1 : ℕ) = (stRun p m cs).1.trend.length from by
                  rw [A4]; exact hieq, snocGet_last] at ht2
              have htrv : stTrend (stRun p m cs).2 (closeD c) = 1 :=
                Option.some.inj (Option.some.inj ht2)
              rw [snocGet_lt _ _ _ (by rw [A2]; omega)] at hu
              -- the previous bar is defined and is the last processed bar
              have hprev_ne : (stRun p m cs).1.atr.base[i]? ≠ some JF.nan := by
                intro hcon
                have := (B i hcon).2.2
                rw [ht1] at this
                cases this
              rcases F with ⟨hAll, _⟩ | ⟨j, u0, l0, tj, hj, hjne, hgap, hju, hjl, hjt, hL⟩
              · exact absurd (hAll i (by omega)) hprev_ne
              · have hji : j = i := by
                  by_contra hne
                  rcases Nat.lt_or_ge j i with hlt | hge
                  · exact hprev_ne (hgap i hlt (by omega))
                  · omega
                rw [hji] at hju hjl hjt
                rw [hju] at hu
                have huu : u = u0 := (Option.some.inj hu).symm
                rw [hjt] at ht1
                have htj1 : tj = 1 := Option.some.inj (Option.some.inj ht1)
                rw [show (i + 1 : ℕ) = (stRun p m cs).1.upper.length from by
                  rw [A2]; exact hieq, snocGet_last, htrv, haval, huu, hL]
                simp only [stUpperCell, htj1]
                simp [stUpperCell]
            · rw [List.getElem?_eq_none (by simp; omega)] at hc
              cases hc
        · intro i cc a l hc ha ht1 ht2 hl
          rw [hbase'] at ha
          by_cases hi : i + 1 < cs.length
          · rw [snocGet_lt cs c (i + 1) hi] at hc
            rw [snocGet_lt _ _ _ (by rw [hbl]; exact hi)] at ha
            rw [snocGet_lt _ _ _ (by rw [A4]; omega)] at ht1
            rw [snocGet_lt _ _ _ (by rw [A4]; exact hi)] at ht2
            rw [snocGet_lt _ _ _ (by rw [A3]; omega)] at hl
            rw [snocGet_lt _ _ _ (by rw [A3]; exact hi)]
            exact E i cc a l hc ha ht1 ht2 hl
          · by_cases hieq : i + 1 = cs.length
            · rw [hieq, snocGet_last cs c] at hc
              cases hc
              rw [show (i + 1 : ℕ) = (stRun p m cs).1.atr.base.length from by
                  rw [hbl]; exact hieq, snocGet_last] at ha
              have haval : a = atrCell p (stRun p m cs).1.atr c := (Option.some.inj ha).symm
              rw [snocGet_lt _ _ _ (by rw [A4]; omega)] at ht1
              rw [show (i + 1 : ℕ) = (stRun p m cs).1.trend.length from by
                  rw [A4]; exact hieq, snocGet_last] at ht2
              have htrv : stTrend (stRun p m cs).2 (closeD c) = -1 :=
                Option.some.inj (Option.some.inj ht2)
              rw [snocGet_lt _ _ _ (by rw [A3]; omega)] at hl
              have hprev_ne : (stRun p m cs).1.atr.base[i]? ≠ some JF.nan := by
                intro hcon
                have := (B i hcon).2.2
                rw [ht1] at this
                cases this
              rcases F with ⟨hAll, _⟩ | ⟨j, u0, l0, tj, hj, hjne, hgap, hju, hjl, hjt, hL⟩
              · exact absurd (hAll i (by omega)) hprev_ne
              · have hji : j = i := by
                  by_contra hne
                  rcases Nat.lt_or_ge j i with hlt | hge
                  · exact hprev_ne (hgap i hlt (by omega))
                  · omega
                rw [hji] at hju hjl hjt
                rw [hjl] at hl
                have hll : l = l0 := (Option.some.inj hl).symm
                rw [hjt] at ht1
                have htj1 : tj = -1 := Option.some.inj (Option.some.inj ht1)
                rw [show (i + 1 : ℕ) = (stRun p m cs).1.lower.length from by
                  rw [A3]; exact hieq, snocGet_last, htrv, haval, hll, hL]
                simp only [stLowerCell, htj1]
                simp [stLowerCell]
            · rw [List.getElem?_eq_none (by simp; omega)] at hc
              cases hc
        · right
          refine ⟨cs.length,
            stUpperCell (stRun p m cs).2
              (rawUpper m c (atrCell p (stRun p m cs).1.atr c))
              (stTrend (stRun p m cs).2 (closeD c)),
            stLowerCell (stRun p m cs).2
              (rawLower m c (atrCell p (stRun p m cs).1.atr c))
              (stTrend (stRun p m cs).2 (closeD c)),
            stTrend (stRun p m cs).2 (closeD c), by simp, ?_, ?_, ?_, ?_, ?_, rfl⟩
          · rw [hbase',
              show cs.length = (stRun p m cs).1.atr.base.length from hbl.symm,
              snocGet_last]
            intro hcon
            exact hnan (Option.some.inj hcon)
          · intro k hk1 hk2
            simp only [List.length_append, List.length_singleton] at hk2
            omega
          · rw [show cs.length = (stRun p m cs).1.upper.length from A2.symm, snocGet_last]
          · rw [show cs.length = (stRun p m cs).1.lower.length from A3.symm, snocGet_last]
          · rw [show cs.length = (stRun p m cs).1.trend.length from A4.symm, snocGet_last]

theorem stPush_eq_run (p : ℕ) (m : ℚ) (cs : List Candle) :
    stPush p m stInit cs = (stRun p m cs).1 := rfl

/-- Claim C4, for one `push` call with the whole candle sequence:
undefined-ATR bars publish `NaN` bands and a `null` trend; the first
defined-ATR bar starts the trend at `+1` and publishes the raw bands
`hl2 ± m·ATR`; while the trend persists, the published band is the
ratcheted `min`/`max` against the previous published band.  The concrete
conjuncts exercise the first-defined-bar clause at `p = 2`, `m = 1`. -/
theorem claim4_supertrend (p : ℕ) (m : ℚ) (cs : List Candle) :
    StClaim p m cs
    ∧ (stPush 2 1 stInit [exC1, exC2]).upper = [JF.nan, JF.fin 12]
    ∧ (stPush 2 1 stInit [exC1, exC2]).lower = [JF.nan, JF.fin 8]
    ∧ (stPush 2 1 stInit [exC1, exC2]).trend = [none, some 1] := by
  obtain ⟨A1, A2, A3, A4, B, B2, C, D, E, F⟩ := stChar p m cs
  refine ⟨⟨?_, ?_, ?_, ?_, ?_, ?_, ?_, ?_⟩, ?_, ?_, ?_⟩
  · rw [stPush_eq_run]; exact A2
  · rw [stPush_eq_run]; exact A3
  · rw [stPush_eq_run]; exact A4
  · rw [stPush_eq_run, A1, atr_base_len]
    simp [atrInit]
  · rw [stPush_eq_run]; exact B
  · rw [stPush_eq_run]; exact C
  · rw [stPush_eq_run]; exact D
  · rw [stPush_eq_run]; exact E
  · norm_num [stPush, stStep, stTrend, stUpperCell, stLowerCell, stInit, stLocalsOf,
      atrStep, trOf, atrInit, closeD, hl2, lastOpt, jmax, jmin, jsub, jabs, jadd, jmul,
      jdiv, jsum, jgt, jlt, jgtOpt, jltOpt, exC1, exC2]
    decide
  · norm_num [stPush, stStep, stTrend, stUpperCell, stLowerCell, stInit, stLocalsOf,
      atrStep, trOf, atrInit, closeD, hl2, lastOpt, jmax, jmin, jsub, jabs, jadd, jmul,
      jdiv, jsum, jgt, jlt, jgtOpt, jltOpt, exC1, exC2]
    decide
  · norm_num [stPush, stStep, stTrend, stUpperCell, stLowerCell, stInit, stLocalsOf,
      atrStep, trOf, atrInit, closeD, hl2, lastOpt, jmax, jmin, jsub, jabs, jadd, jmul,
      jdiv, jsum, jgt, jlt, jgtOpt, jltOpt, exC1, exC2]
    decide

/-!
## Claim theorems — ledger and scenario
-/

theorem wallet_step_nonneg (o : Order) (w : String → ℚ) (h0 : ∀ s, 0 ≤ w s)
    (hb : 0 < (o.hi + o.cl) / 2) (hs : 0 < (o.lo + o.cl) / 2) :
    ∀ s, 0 ≤ applyOrder w o s := by
  intro s
  unfold applyOrder orderExec
  by_cases hv : o.value ≤ 0
  · simpa [hv] using h0 s
  · push_neg at hv
    have hvle : ¬ o.value ≤ 0 := not_le.2 hv
    cases hside : o.side with
    | buy =>
        simp only [hvle, if_false]
        by_cases hg : o.value ≤ w o.sym2
        · have hq : 0 < o.value / ((o.hi + o.cl) / 2) := div_pos hv hb
          simp only [hg, if_true, wSet]
          split_ifs with h1 h2 h3 <;> try linarith [h0 s, h0 o.sym1, h0 o.sym2]
        · simpa [hg] using h0 s
    | sell =>
        simp only [hvle, if_false]
        by_cases hg : o.value / ((o.lo + o.cl) / 2) ≤ w o.sym1
        · have hq : 0 < o.value / ((o.lo + o.cl) / 2) := div_pos hv hs
          simp only [hg, if_true, wSet]
          split_ifs with h1 h2 h3 <;> try linarith [h0 s, h0 o.sym1, h0 o.sym2]
        · simpa [hg] using h0 s

/-- Claim C8: an order with non-positive amount, a buy without `sym2`
funds, or a sell without the required `sym1` quantity is a silent no-op;
an accepted buy debits `sym2` by the amount and credits `sym1` by
`amount / ((high+close)/2)`; an accepted sell debits `sym1` by
`amount / ((low+close)/2)` and credits `sym2` by the amount.  The price
hypotheses keep the exact-rational division faithful to JS (which would
produce `Infinity` on a zero execution price). -/
theorem claim8_ledger (sym1 sym2 : String) (hi lo cl : ℚ) (w : String → ℚ) (v : ℚ)
    (hb : (hi + cl) / 2 ≠ 0) (hs : (lo + cl) / 2 ≠ 0) :
    LedgerClaim sym1 sym2 hi lo cl w v := by
  refine ⟨?_, ?_, ?_, ?_, ?_⟩
  · intro h; exact ⟨by simp [orderExec, h], by simp [orderExec, h]⟩
  · intro h
    by_cases hv : v ≤ 0
    · simp [orderExec, hv]
    · have : ¬ v ≤ w sym2 := not_le.2 h
      simp [orderExec, hv, this]
  · intro h
    by_cases hv : v ≤ 0
    · simp [orderExec, hv]
    · have : ¬ v / ((lo + cl) / 2) ≤ w sym1 := not_le.2 h
      simp [orderExec, hv, this]
  · intro h1 h2
    have : ¬ v ≤ 0 := not_le.2 h1
    simp [orderExec, this, h2]
  · intro h1 h2
    have : ¬ v ≤ 0 := not_le.2 h1
    simp [orderExec, this, h2]

/-- Witness for claim C8 at a concrete accepted/rejected configuration. -/
theorem claim8_ledger_witness :
    ((2 + 1 : ℚ) / 2 ≠ 0) ∧ ((1 + 1 : ℚ) / 2 ≠ 0) ∧
      LedgerClaim "BTC" "USDT" 2 1 1 (fun s => if s = "USDT" then 10 else 0) 4 :=
  ⟨by norm_num, by norm_num,
    claim8_ledger "BTC" "USDT" 2 1 1 (fun s => if s = "USDT" then 10 else 0) 4
      (by norm_num) (by norm_num)⟩

/-- Claim C9: `start` throws exactly when no data-source function is
configured (the constructor leaves `api` null and `setAPI` nulls it for a
non-function); with a data source set, `start` proceeds to the fetch
fan-out without this error. -/
theorem claim9_start_guard (s : Scenario) :
    (s.api = none → start s = Except.error "API not set")
    ∧ (∀ f : ApiFn, s.api = some f → start s = Except.ok (startFetchPlan s f))
    ∧ mkScenario.api = none
    ∧ (∀ sc : Scenario, (setAPI sc none).api = none)
    ∧ (∀ (sc : Scenario) (f : ApiFn), (setAPI sc (some f)).api = some f) := by
  refine ⟨?_, ?_, rfl, fun _ => rfl, fun _ _ => rfl⟩
  · intro h; simp [start, h]
  · intro f h; simp [start, h]

/-- Witness for claim C9: the fresh scenario errors, one with a data
source does not. -/
theorem claim9_start_guard_witness :
    mkScenario.api = none
    ∧ start mkScenario = Except.error "API not set"
    ∧ start (setAPI mkScenario (some (fun _ _ _ => []))) =
        Except.ok (startFetchPlan (setAPI mkScenario (some (fun _ _ _ => [])))
          (fun _ _ _ => [])) :=
  ⟨rfl, (claim9_start_guard mkScenario).1 rfl,
    (claim9_start_guard (setAPI mkScenario (some (fun _ _ _ => [])))).2.1 _ rfl⟩

/-- Claim C10: from a non-negative wallet, any sequence of strategy orders
executed against candles with positive execution prices keeps every
balance non-negative — the execution guards preserve the invariant. -/
theorem claim10_wallet_nonneg (os : List Order) (w : String → ℚ)
    (h0 : ∀ s, 0 ≤ w s)
    (hp : ∀ o ∈ os, 0 < (o.hi + o.cl) / 2 ∧ 0 < (o.lo + o.cl) / 2) :
    NonnegClaim w os := by
  induction os generalizing w with
  | nil => intro s; simpa [applyOrders] using h0 s
  | cons o rest ih =>
      intro s
      have hmem := hp o (List.mem_cons_self o rest)
      have h1 : ∀ t, 0 ≤ applyOrder w o t :=
        wallet_step_nonneg o w h0 hmem.1 hmem.2
      have h2 : ∀ o2 ∈ rest, 0 < (o2.hi + o2.cl) / 2 ∧ 0 < (o2.lo + o2.cl) / 2 :=
        fun o2 ho2 => hp o2 (List.mem_cons_of_mem o ho2)
      have := ih (applyOrder w o) h1 h2 s
      simpa [NonnegClaim, applyOrders] using this

/-- Witness for claim C10 at a concrete wallet and one buy order. -/
theorem claim10_wallet_nonneg_witness :
    (∀ s : String, (0 : ℚ) ≤ (fun _ : String => (10 : ℚ)) s)
    ∧ (∀ o ∈ [exOrder], 0 < (o.hi + o.cl) / 2 ∧ 0 < (o.lo + o.cl) / 2)
    ∧ NonnegClaim (fun _ : String => (10 : ℚ)) [exOrder] := by
  have h0 : ∀ s : String, (0 : ℚ) ≤ (fun _ : String => (10 : ℚ)) s := fun _ => by norm_num
  have hp : ∀ o ∈ [exOrder], 0 < (o.hi + o.cl) / 2 ∧ 0 < (o.lo + o.cl) / 2 := by
    intro o ho
    simp only [List.mem_singleton] at ho
    subst ho
    constructor <;> norm_num [exOrder]
  exact ⟨h0, hp, claim10_wallet_nonneg [exOrder] (fun _ => 10) h0 hp⟩

end TradeScenario

